import Mathlib

/-!
Verification of the per-window read-processing pipeline of phyloscanner.py.

Every definition is a shallow embedding of the corresponding block of
src/phyloscanner.py, except where the deciding code lives in the repository
module tools/phyloscanner_funcs.py or tools/TranslateCoords.py (which are not
part of the provided sources); those definitions carry a doc comment starting
with "Modelled from the spec:" and follow the specification text.

Conventions: Python dicts keyed by strings appear as association lists in
insertion order; Python sequences/read names appear as List Char or String;
Python float arithmetic on count ratios appears as exact rational arithmetic.
-/

namespace Phyloscanner

/-- Sequence data of a read within a window (a Python string). -/
abbrev Seq := List Char

/-- Sample alias (a Python string). -/
abbrev Alias := List Char

/-- Sum of the counts of a read dict (`sum of ReadDict.values()`). -/
def countSum (d : List (Seq × Nat)) : Nat := (d.map Prod.snd).sum

/-! ### C7: sentinel resolution after coordinate translation
Embedding of the loop over `CoordsInRefs[BamAlias]` at phyloscanner.py lines
1023-1030: `-1` becomes `1`, the string `'NaN'` becomes the reference length. -/

/-- A value in a translated-coordinates list as produced by TranslateCoords:
either a Python int or the literal string `'NaN'`. -/
inductive PyCoord where
  | int (n : Int)
  | nan
deriving DecidableEq, Repr

/-- Embedding of the sentinel-resolution loop (phyloscanner.py lines 1026-1030):
`-1` is replaced by `1`, `'NaN'` is replaced by the reference length, and any
other value is kept. -/
def resolveCoords (refLen : Int) (cs : List PyCoord) : List Int :=
  cs.map (fun c =>
    match c with
    | .int n => if n = -1 then 1 else n
    | .nan => refLen)

/-- Modelled from the spec: the output domain of tools/TranslateCoords.py
(missing from src/), per spec sections 3 and 4.1: a translated coordinate is the
before-start sentinel `-1`, the after-end sentinel `'NaN'`, or an integer local
coordinate clamped into `[1, reference length]`. -/
def ValidTranslated (refLen : Int) (c : PyCoord) : Prop :=
  match c with
  | .int n => n = -1 ∨ (1 ≤ n ∧ n ≤ refLen)
  | .nan => True

/-- C7: after sentinel resolution over a bam file's reference, every before-start
sentinel (-1) has been replaced by 1, every after-end sentinel ('NaN') by the
reference length, and every resulting window coordinate is an integer in
[1, reference length]; no sentinel is left unresolved (the result is a list of
plain integers). -/
theorem resolveCoords_resolves (refLen : Int) (hLen : 1 ≤ refLen)
    (cs : List PyCoord) (hcs : ∀ c ∈ cs, ValidTranslated refLen c) :
    (resolveCoords refLen cs).length = cs.length ∧
    (∀ x ∈ resolveCoords refLen cs, 1 ≤ x ∧ x ≤ refLen) ∧
    (∀ (k : Nat) (hk : k < cs.length),
      (cs.get ⟨k, hk⟩ = .int (-1) →
        (resolveCoords refLen cs).get ⟨k, by simpa [resolveCoords] using hk⟩ = 1) ∧
      (cs.get ⟨k, hk⟩ = .nan →
        (resolveCoords refLen cs).get ⟨k, by simpa [resolveCoords] using hk⟩ = refLen)) := by
  refine ⟨by simp [resolveCoords], ?_, ?_⟩
  · intro x hx
    simp only [resolveCoords, List.mem_map] at hx
    rcases hx with ⟨c, hc, rfl⟩
    have hv := hcs c hc
    cases c with
    | int n =>
      rcases hv with h | h
      · subst h
        simp
        omega
      · have hne : n ≠ -1 := by omega
        simp only [if_neg hne]
        exact h
    | nan =>
      exact ⟨hLen, le_refl _⟩
  · intro k hk
    refine ⟨fun h => ?_, fun h => ?_⟩ <;>
      simp_all [resolveCoords, List.get_eq_getElem]

/-- Witness for C7 at a concrete input: reference length 100 and coordinate
list [-1, 'NaN', 5]. -/
theorem resolveCoords_resolves_witness :
    1 ≤ (1 : Int) ∧ (1 : Int) ≤ 100 :=
  (resolveCoords_resolves 100 (by norm_num)
      [PyCoord.int (-1), PyCoord.nan, PyCoord.int 5]
      (by intro c hc; fin_cases hc <;> simp [ValidTranslated])).2.1
    1 (by decide)

/-! ### C9: window-level failure handling in the main loop
Embedding of the per-window external-alignment interaction of phyloscanner.py
lines 1605-1654: a failure of the mafft call (lines 1615-1623) or a missing
output file (lines 1624-1627) prints a message and continues to the next
window; a failure of `AlignIO.read` (lines 1637-1643) or of
`ReMergeAlignedReads` (lines 1647-1653) prints "Quitting." and re-raises,
aborting the whole run. -/

/-- Outcome of the external alignment interaction for one window, as
distinguished by the source's four error paths. `ok a` carries the
successfully read (and, if merging, successfully re-merged) alignment. -/
inductive AlignOutcome (α : Type) where
  | callFailed
  | productMissing
  | productUnreadable
  | remergeFailed
  | ok (a : α)

/-- Embedding of the control flow of the window loop around the mafft call:
`callFailed` and `productMissing` skip the window (continue), while
`productUnreadable` and `remergeFailed` abort the run (raise after printing
"Quitting."). The returned list collects the alignments of the windows that
were fully processed. -/
def processWindows {α : Type} : List (AlignOutcome α) → Except String (List α)
  | [] => .ok []
  | .callFailed :: rest => processWindows rest
  | .productMissing :: rest => processWindows rest
  | .productUnreadable :: _ =>
      .error "Malfunction of phylotypes: problem encountered reading in the alignment. Quitting."
  | .remergeFailed :: _ =>
      .error "Problem encountered while analysing the alignment. Quitting."
  | .ok a :: rest => (processWindows rest).map (a :: ·)

/-- C9 counterexample: the claim says a failure reading the alignment product
causes only that window to be skipped and never aborts the run, but in the code
an `AlignIO.read` failure raises: the run aborts and the following window
(whose alignment succeeds) is never processed. -/
theorem processWindows_abort_counterexample :
    processWindows [AlignOutcome.productUnreadable, AlignOutcome.ok 7] =
      .error "Malfunction of phylotypes: problem encountered reading in the alignment. Quitting." ∧
    processWindows [AlignOutcome.ok 7] = .ok [7] := by
  constructor <;> rfl

/-- C9 amended: a failure of the external mafft call, or a missing mafft output
file, causes only that window to be skipped with processing continuing at the
next window; but a failure reading the alignment product, or a failure of the
post-alignment re-merge, aborts the whole run. -/
theorem processWindows_amended {α : Type} (rest : List (AlignOutcome α)) :
    processWindows (.callFailed :: rest) = processWindows rest ∧
    processWindows (.productMissing :: rest) = processWindows rest ∧
    (∃ e, processWindows (.productUnreadable :: rest) = .error e) ∧
    (∃ e, processWindows (.remergeFailed :: rest) = .error e) ∧
    (∀ a, processWindows (.ok a :: rest) = (processWindows rest).map (a :: ·)) :=
  ⟨rfl, rfl, ⟨_, rfl⟩, ⟨_, rfl⟩, fun _ => rfl⟩

/-! ### C8: fatal consistency checks around coordinate translation
Embedding of `TranslateCoords` (phyloscanner.py lines 755-804) and of the
key-set checks on its result (lines 878-885 and 971-975). -/

/-- Overwriting insertion into an association list, as Python dict assignment
`CoordsDict[SeqName] = coords`. -/
def dictInsert {α : Type} (d : List (String × α)) (k : String) (v : α) :
    List (String × α) :=
  if d.any (fun p => p.1 == k) then
    d.map (fun p => if p.1 == k then (k, v) else p)
  else d ++ [(k, v)]

/-- Conversion of one coordinate field (phyloscanner.py lines 791-802): the
string `'NaN'` is kept as-is, otherwise the field is converted to an integer.
`intParse` stands for Python's `int()` conversion including the `'.5'` float
fallback; `none` means the field is not understood, which is fatal. -/
def parseCoordField (intParse : String → Option Int) (s : String) :
    Except String PyCoord :=
  if s == "NaN" then .ok .nan
  else
    match intParse s with
    | some n => .ok (.int n)
    | none => .error "Unable to understand the coordinate as an integer. Quitting."

/-- Processing of a single output line of TranslateCoords (lines 767-803): a
blank line is skipped; a non-blank line must split into a sequence name plus
exactly `numCoords` coordinate fields, otherwise the run exits; an understood
line is inserted into the dict keyed by its sequence name. -/
def translateLineStep (intParse : String → Option Int) (numCoords : Nat)
    (acc : List (String × List PyCoord)) :
    List String → Except String (List (String × List PyCoord))
  | [] => .ok acc
  | seqName :: fields =>
    if (seqName :: fields).length ≠ numCoords + 1 then
      .error "Unexpected number of fields in line in the output of TranslateCoords. Quitting."
    else
      match fields.mapM (parseCoordField intParse) with
      | .error e => .error e
      | .ok coords => .ok (dictInsert acc seqName coords)

/-- Embedding of the body of `TranslateCoords` (lines 766-804): fold the line
step over the output lines of the external program. A line is given as its list
of whitespace-separated fields; a blank line is the empty list. -/
def translateCoordsAux (intParse : String → Option Int) (numCoords : Nat) :
    List (String × List PyCoord) → List (List String) →
    Except String (List (String × List PyCoord))
  | acc, [] => .ok acc
  | acc, line :: rest =>
    match translateLineStep intParse numCoords acc line with
    | .error e => .error e
    | .ok acc2 => translateCoordsAux intParse numCoords acc2 rest

/-- The dict returned by `TranslateCoords` for the given output lines. -/
def translateCoords (intParse : String → Option Int) (numCoords : Nat)
    (lines : List (List String)) : Except String (List (String × List PyCoord)) :=
  translateCoordsAux intParse numCoords [] lines

/-- Equality of Python sets of names, as used by
`set(CoordsDict.keys()) != set(...)`. -/
def sameKeySet (ks es : List String) : Bool :=
  ks.all (fun k => es.contains k) && es.all (fun e => ks.contains e)

/-- Embedding of the caller-side consistency check (lines 878-885 and 971-975):
after a successful `TranslateCoords`, the set of returned sequence names must
equal the set of expected names, otherwise the run exits with a
"Malfunction of phylotypes" error. -/
def checkedTranslateCoords (intParse : String → Option Int) (numCoords : Nat)
    (expected : List String) (lines : List (List String)) :
    Except String (List (String × List PyCoord)) :=
  match translateCoords intParse numCoords lines with
  | .error e => .error e
  | .ok d =>
    if sameKeySet (d.map Prod.fst) expected then .ok d
    else .error "Malfunction of phylotypes: mismatch between the sequences found in the output of TranslateCoords and those expected. Quitting."

theorem translateLineStep_badLine (intParse : String → Option Int)
    (numCoords : Nat) (acc : List (String × List PyCoord)) (line : List String)
    (hne : line ≠ []) (hlen : line.length ≠ numCoords + 1) :
    translateLineStep intParse numCoords acc line =
      .error "Unexpected number of fields in line in the output of TranslateCoords. Quitting." := by
  match line, hne with
  | seqName :: fields, _ =>
    rw [translateLineStep, if_pos hlen]

theorem translateLineStep_ok_length (intParse : String → Option Int)
    (numCoords : Nat) (acc acc2 : List (String × List PyCoord)) (line : List String)
    (h : translateLineStep intParse numCoords acc line = .ok acc2) :
    line = [] ∨ line.length = numCoords + 1 := by
  by_cases hne : line = []
  · exact Or.inl hne
  · by_cases hlen : line.length ≠ numCoords + 1
    · rw [translateLineStep_badLine intParse numCoords acc line hne hlen] at h
      cases h
    · exact Or.inr (by omega)

theorem translateCoordsAux_badLine_error (intParse : String → Option Int)
    (numCoords : Nat) (lines : List (List String)) (l : List String)
    (hl : l ∈ lines) (hne : l ≠ []) (hlen : l.length ≠ numCoords + 1) :
    ∀ acc, ∃ e, translateCoordsAux intParse numCoords acc lines = .error e := by
  induction lines with
  | nil => cases hl
  | cons line rest ih =>
    intro acc
    rcases List.mem_cons.1 hl with hl | hl
    · subst hl
      rw [translateCoordsAux, translateLineStep_badLine intParse numCoords acc l hne hlen]
      exact ⟨_, rfl⟩
    · rw [translateCoordsAux]
      cases hstep : translateLineStep intParse numCoords acc line with
      | error e => exact ⟨e, rfl⟩
      | ok acc2 => exact ih hl acc2

theorem translateCoordsAux_ok_lines (intParse : String → Option Int)
    (numCoords : Nat) (lines : List (List String)) :
    ∀ (acc d : List (String × List PyCoord)),
    translateCoordsAux intParse numCoords acc lines = .ok d →
    ∀ l ∈ lines, l ≠ [] → l.length = numCoords + 1 := by
  induction lines with
  | nil =>
    intro acc d _ l hl
    cases hl
  | cons line rest ih =>
    intro acc d h l hl hne
    rw [translateCoordsAux] at h
    cases hstep : translateLineStep intParse numCoords acc line with
    | error e =>
      rw [hstep] at h
      cases h
    | ok acc2 =>
      rw [hstep] at h
      rcases List.mem_cons.1 hl with hl | hl
      · subst hl
        rcases translateLineStep_ok_length intParse numCoords acc acc2 l hstep with h0 | h0
        · exact absurd h0 hne
        · exact h0
      · exact ih acc2 d h l hl hne

/-- C8: coordinate translation fails fatally whenever a returned non-blank line
does not contain exactly the requested number of coordinates plus the sequence
name, or the set of sequence names returned does not equal the set expected;
equivalently, a successful result guarantees both consistency conditions. -/
theorem checkedTranslateCoords_consistency (intParse : String → Option Int)
    (numCoords : Nat) (expected : List String) (lines : List (List String)) :
    ((∃ l ∈ lines, l ≠ [] ∧ l.length ≠ numCoords + 1) →
      ∃ e, checkedTranslateCoords intParse numCoords expected lines = .error e) ∧
    (∀ d, checkedTranslateCoords intParse numCoords expected lines = .ok d →
      sameKeySet (d.map Prod.fst) expected = true ∧
      ∀ l ∈ lines, l ≠ [] → l.length = numCoords + 1) := by
  constructor
  · rintro ⟨l, hl, hne, hlen⟩
    rcases translateCoordsAux_badLine_error intParse numCoords lines l hl hne hlen []
      with ⟨e, he⟩
    exact ⟨e, by rw [checkedTranslateCoords, translateCoords, he]⟩
  · intro d hd
    rw [checkedTranslateCoords] at hd
    split at hd
    next e heq => cases hd
    next d0 htc =>
      split at hd
      next hk =>
        cases hd
        exact ⟨hk, translateCoordsAux_ok_lines intParse numCoords lines [] d htc⟩
      next hk => cases hd

/-- Witness for C8 at a concrete input: with two coordinates requested, the
line "A 3" has too few fields, so the translation exits with an error. -/
theorem checkedTranslateCoords_consistency_witness :
    ∃ e, checkedTranslateCoords (fun s => s.toInt?) 2 ["A"] [["A", "3"]] = .error e :=
  (checkedTranslateCoords_consistency (fun s => s.toInt?) 2 ["A"] [["A", "3"]]).1
    ⟨["A", "3"], by simp, by simp, by simp⟩

/-! ### C2/C3: MergeSimilarStrings
The function `pf.MergeSimilarStrings` lives in tools/phyloscanner_funcs.py,
which is not part of the provided sources; it is modelled from spec section
4.3. Its callers (`ProcessReadDict` lines 1041-1042 and `ReMergeAlignedReads`
lines 1119-1123) pass a read dict and `args.merging_threshold`. -/

/-- Modelled from the spec: the bounded edit distance of section 4.3 counts
character substitutions between two sequences position by position. It is only
compared against the threshold when the two lengths are equal. -/
def hamming : List Char → List Char → Nat
  | [], _ => 0
  | _ :: _, [] => 0
  | a :: as, b :: bs => (if a = b then 0 else 1) + hamming as bs

/-- Modelled from the spec: two sequences are mergeable at threshold `t` when
they have the same length and differ by at most `t` substitutions (section 4.3:
"no two surviving sequences differ by ≤ t character substitutions at the same
length (sequences of differing length are never merged)"). -/
def near (t : Nat) (s1 s2 : Seq) : Bool :=
  decide (s1.length = s2.length) && decide (hamming s1 s2 ≤ t)

/-- Lexicographic order on sequences, used as the spec's "stable, deterministic
order (e.g., lexicographic on sequence)" tie-break. -/
def seqLe : List Char → List Char → Bool
  | [], _ => true
  | _ :: _, [] => false
  | a :: as, b :: bs => if a = b then seqLe as bs else decide (a < b)

/-- Order for the greedy pass of section 4.3: highest count first, ties broken
lexicographically on the sequence. -/
def pairLe (p q : Seq × Nat) : Bool := q.2 < p.2 || (q.2 == p.2 && seqLe p.1 q.1)

/-- Modelled from the spec: the greedy absorption pass of section 4.3 —
"process sequences from highest count to lowest; for each not-yet-absorbed
sequence, absorb every later (lower- or equal-count) sequence within distance
t into it, summing counts". -/
def mergeLoop (t : Nat) : List (Seq × Nat) → List (Seq × Nat)
  | [] => []
  | (s, c) :: rest =>
    (s, c + countSum (rest.filter (fun p => near t s p.1))) ::
      mergeLoop t (rest.filter (fun p => !near t s p.1))
termination_by l => l.length
decreasing_by
  simp only [List.length_cons]
  exact Nat.lt_succ_of_le (List.length_filter_le _ _)

/-- The processing order of section 4.3: sequences sorted from highest count to
lowest, count ties broken by the deterministic lexicographic order. -/
def sortReads (d : List (Seq × Nat)) : List (Seq × Nat) := d.mergeSort pairLe

/-- Modelled from the spec: `pf.MergeSimilarStrings(ReadDict, threshold)` per
section 4.3 — sort by descending count and run the greedy absorption pass. -/
def MergeSimilarStrings (d : List (Seq × Nat)) (t : Nat) : List (Seq × Nat) :=
  mergeLoop t (sortReads d)

theorem hamming_comm : ∀ s1 s2, hamming s1 s2 = hamming s2 s1
  | [], [] => rfl
  | [], _ :: _ => rfl
  | _ :: _, [] => rfl
  | a :: as, b :: bs => by
    rw [hamming, hamming, hamming_comm as bs]
    congr 1
    by_cases h : a = b
    · rw [if_pos h, if_pos h.symm]
    · rw [if_neg h, if_neg (fun h2 => h (h2.symm))]

theorem hamming_self : ∀ s : List Char, hamming s s = 0
  | [] => rfl
  | a :: as => by rw [hamming, hamming_self as]; simp

theorem hamming_eq_zero :
    ∀ s1 s2 : List Char, s1.length = s2.length → hamming s1 s2 = 0 → s1 = s2
  | [], [], _, _ => rfl
  | a :: as, b :: bs, hlen, h => by
    rw [hamming] at h
    have hab : a = b := by
      by_contra hne
      rw [if_neg hne] at h
      omega
    rw [if_pos hab] at h
    simp only [List.length_cons, Nat.add_right_cancel_iff] at hlen
    rw [hab, hamming_eq_zero as bs hlen (by omega)]

theorem near_symm (t : Nat) (s1 s2 : Seq) : near t s1 s2 = near t s2 s1 := by
  rw [near, near, hamming_comm]
  congr 1
  exact decide_eq_decide.mpr ⟨Eq.symm, Eq.symm⟩

theorem near_zero_iff (s1 s2 : Seq) : near 0 s1 s2 = true ↔ s1 = s2 := by
  rw [near]
  constructor
  · intro h
    simp only [Bool.and_eq_true, decide_eq_true_eq] at h
    exact hamming_eq_zero s1 s2 h.1 (by omega)
  · rintro rfl
    simp [hamming_self]

theorem countSum_cons (s : Seq) (c : Nat) (l : List (Seq × Nat)) :
    countSum ((s, c) :: l) = c + countSum l := by
  simp [countSum]

theorem countSum_filter_add (p : Seq × Nat → Bool) :
    ∀ l : List (Seq × Nat),
      countSum (l.filter p) + countSum (l.filter (fun x => !p x)) = countSum l
  | [] => rfl
  | (s, c) :: rest => by
    by_cases h : p (s, c)
    · rw [List.filter_cons_of_pos h, List.filter_cons_of_neg (by simp [h]),
        countSum_cons, countSum_cons]
      have := countSum_filter_add p rest
      omega
    · rw [List.filter_cons_of_neg h, List.filter_cons_of_pos (by simp [h]),
        countSum_cons, countSum_cons]
      have := countSum_filter_add p rest
      omega

theorem mergeLoop_sum_aux (t : Nat) :
    ∀ (n : Nat) (l : List (Seq × Nat)), l.length ≤ n →
      countSum (mergeLoop t l) = countSum l := by
  intro n
  induction n with
  | zero =>
    intro l hl
    rw [List.eq_nil_of_length_eq_zero (Nat.le_zero.mp hl), mergeLoop]
  | succ n ih =>
    intro l hl
    match l with
    | [] => rw [mergeLoop]
    | (s, c) :: rest =>
      rw [mergeLoop, countSum_cons, countSum_cons,
        ih _ (by
          have := List.length_filter_le (fun p => !near t s p.1) rest
          simp only [List.length_cons] at hl
          omega)]
      have := countSum_filter_add (fun p => near t s p.1) rest
      simp only [Bool.not_eq_true] at this ⊢
      omega

theorem mergeLoop_sum (t : Nat) (l : List (Seq × Nat)) :
    countSum (mergeLoop t l) = countSum l :=
  mergeLoop_sum_aux t l.length l (le_refl _)

theorem mergeLoop_seqs_aux (t : Nat) :
    ∀ (n : Nat) (l : List (Seq × Nat)), l.length ≤ n →
      ∀ q ∈ mergeLoop t l, ∃ p ∈ l, q.1 = p.1 := by
  intro n
  induction n with
  | zero =>
    intro l hl q hq
    rw [List.eq_nil_of_length_eq_zero (Nat.le_zero.mp hl), mergeLoop] at hq
    cases hq
  | succ n ih =>
    intro l hl q hq
    match l with
    | [] =>
      rw [mergeLoop] at hq
      cases hq
    | (s, c) :: rest =>
      rw [mergeLoop] at hq
      rcases List.mem_cons.1 hq with hq | hq
      · exact ⟨(s, c), List.mem_cons_self _ _, by rw [hq]⟩
      · have hlen : (rest.filter (fun p => !near t s p.1)).length ≤ n := by
          have := List.length_filter_le (fun p => !near t s p.1) rest
          simp only [List.length_cons] at hl
          omega
        rcases ih _ hlen q hq with ⟨p, hp, hqp⟩
        exact ⟨p, List.mem_cons_of_mem _ (List.mem_of_mem_filter hp), hqp⟩

theorem mergeLoop_pairwise_aux (t : Nat) :
    ∀ (n : Nat) (l : List (Seq × Nat)), l.length ≤ n →
      (mergeLoop t l).Pairwise (fun p q => near t p.1 q.1 = false) := by
  intro n
  induction n with
  | zero =>
    intro l hl
    rw [List.eq_nil_of_length_eq_zero (Nat.le_zero.mp hl), mergeLoop]
    exact List.Pairwise.nil
  | succ n ih =>
    intro l hl
    match l with
    | [] =>
      rw [mergeLoop]
      exact List.Pairwise.nil
    | (s, c) :: rest =>
      rw [mergeLoop]
      have hlen : (rest.filter (fun p => !near t s p.1)).length ≤ n := by
        have := List.length_filter_le (fun p => !near t s p.1) rest
        simp only [List.length_cons] at hl
        omega
      refine List.Pairwise.cons ?_ (ih _ hlen)
      intro q hq
      rcases mergeLoop_seqs_aux t n _ hlen q hq with ⟨p, hp, hqp⟩
      have h2 := List.of_mem_filter hp
      simp only [Bool.not_eq_true'] at h2
      show near t s q.1 = false
      rw [hqp]
      exact h2

theorem mergeLoop_of_pairwise (t : Nat) :
    ∀ l : List (Seq × Nat),
      l.Pairwise (fun p q => near t p.1 q.1 = false) → mergeLoop t l = l
  | [], _ => by rw [mergeLoop]
  | (s, c) :: rest, h => by
    rcases List.pairwise_cons.1 h with ⟨hhead, htail⟩
    have h1 : rest.filter (fun p => near t s p.1) = [] := by
      rw [List.filter_eq_nil_iff]
      intro p hp
      simp [hhead p hp]
    have h2 : rest.filter (fun p => !near t s p.1) = rest := by
      rw [List.filter_eq_self]
      intro p hp
      simp [hhead p hp]
    rw [mergeLoop, h1, h2, mergeLoop_of_pairwise t rest htail]
    simp [countSum]

theorem mergeSimilarStrings_pairwise (d : List (Seq × Nat)) (t : Nat) :
    (MergeSimilarStrings d t).Pairwise (fun p q => near t p.1 q.1 = false) :=
  mergeLoop_pairwise_aux t (sortReads d).length (sortReads d) (le_refl _)

/-- C2: applying the similarity merge to its own output returns that output
unchanged (as a multiset, i.e. as a Python dict), for every multiset and every
threshold; and with threshold 0 the merge leaves every multiset (with distinct
sequences, as in a Python dict) unchanged. -/
theorem mergeSimilarStrings_idempotent :
    (∀ (d : List (Seq × Nat)) (t : Nat),
      (MergeSimilarStrings (MergeSimilarStrings d t) t).Perm (MergeSimilarStrings d t)) ∧
    (∀ d : List (Seq × Nat), (d.map Prod.fst).Nodup →
      (MergeSimilarStrings d 0).Perm d) := by
  constructor
  · intro d t
    have hout : (MergeSimilarStrings d t).Pairwise (fun p q => near t p.1 q.1 = false) :=
      mergeSimilarStrings_pairwise d t
    have hperm : List.Perm (sortReads (MergeSimilarStrings d t)) (MergeSimilarStrings d t) :=
      List.mergeSort_perm _ pairLe
    have hsorted : (sortReads (MergeSimilarStrings d t)).Pairwise
        (fun p q => near t p.1 q.1 = false) := by
      refine (List.Perm.pairwise_iff ?_ hperm).mpr hout
      intro x y hxy
      rw [near_symm]
      exact hxy
    have heq : MergeSimilarStrings (MergeSimilarStrings d t) t
        = sortReads (MergeSimilarStrings d t) := by
      rw [MergeSimilarStrings, mergeLoop_of_pairwise t _ hsorted]
    rw [heq]
    exact hperm
  · intro d hnd
    have hperm : List.Perm (sortReads d) d := List.mergeSort_perm d pairLe
    have hnd2 : ((sortReads d).map Prod.fst).Nodup :=
      ((hperm.map Prod.fst).nodup_iff).mpr hnd
    have hpw : (sortReads d).Pairwise (fun p q => near 0 p.1 q.1 = false) := by
      have hpw0 := (List.pairwise_map).mp hnd2
      refine hpw0.imp ?_
      intro p q hpq
      rw [← Bool.not_eq_true]
      intro hn
      exact hpq (near_zero_iff p.1 q.1 |>.mp hn)
    have heq : MergeSimilarStrings d 0 = sortReads d := by
      rw [MergeSimilarStrings, mergeLoop_of_pairwise 0 _ hpw]
    rw [heq]
    exact hperm

/-- Witness for C2: a concrete two-element read dict with distinct sequences is
unchanged (as a multiset) by the merge at threshold 0. -/
theorem mergeSimilarStrings_idempotent_witness :
    (MergeSimilarStrings [(['A'], 2), (['C'], 1)] 0).Perm [(['A'], 2), (['C'], 1)] :=
  mergeSimilarStrings_idempotent.2 [(['A'], 2), (['C'], 1)] (by decide)

/-- C3: the similarity merge conserves the sum of counts, for every multiset
and every threshold. -/
theorem mergeSimilarStrings_conserves_counts (d : List (Seq × Nat)) (t : Nat) :
    countSum (MergeSimilarStrings d t) = countSum d := by
  rw [MergeSimilarStrings, mergeLoop_sum]
  exact ((List.mergeSort_perm d pairLe).map Prod.snd).sum_eq

/-! ### C10 (and naming for C6): ProcessReadDict and ReMergeAlignedReads
Embedding of `ProcessReadDict` (phyloscanner.py lines 1032-1062) and of the
naming part of `ReMergeAlignedReads` (lines 1113-1134): reads are sorted by
descending count (`sorted(..., key=lambda x: x[1], reverse=True)`, a stable
sort on the count only) and emitted with names
`<SampleID>_read_<rank>_count_<count>`, ranks counted from 1. -/

/-- Decimal digit character, as Python's `str` on a digit value. -/
def digitChar (d : Nat) : Char := Char.ofNat (48 + d)

/-- Decimal representation of a natural number, as Python's `str(n)`. -/
def natDigits (n : Nat) : List Char :=
  if _h : n < 10 then [digitChar n]
  else natDigits (n / 10) ++ [digitChar (n % 10)]
termination_by n
decreasing_by
  exact Nat.div_lt_self (by omega) (by omega)

/-- The literal `"_read_"`. -/
def uRead : List Char := ['_', 'r', 'e', 'a', 'd', '_']

/-- The literal `"_count_"`. -/
def uCount : List Char := ['_', 'c', 'o', 'u', 'n', 't', '_']

/-- A derived sequence name, phyloscanner.py line 1059:
`BasenameForReads+'_read_'+str(k+1)+'_count_'+str(count)`. -/
def readName (smp : Alias) (rank count : Nat) : List Char :=
  smp ++ uRead ++ natDigits rank ++ uCount ++ natDigits count

/-- Embedding of `sorted(ReadDict.items(), key=lambda x: x[1], reverse=True)`
(lines 1057-1058 and 1124-1125): a stable sort by descending count only. -/
def sortReadsByCountDesc (d : List (Seq × Nat)) : List (Seq × Nat) :=
  d.mergeSort (fun p q => decide (q.2 ≤ p.2))

/-- Emission of named reads, ranks counted from `k`. -/
def nameReadsFrom (smp : Alias) : Nat → List (Seq × Nat) → List (List Char × Seq)
  | _k, [] => []
  | k, (read, count) :: rest =>
    (readName smp k count, read) :: nameReadsFrom smp (k + 1) rest

/-- Emission loop shared by `ProcessReadDict` (lines 1055-1062) and
`ReMergeAlignedReads` (lines 1124-1128): sort by descending count, then name
the k-th read (0-based) with rank k+1 and its count. -/
def nameReads (smp : Alias) (d : List (Seq × Nat)) : List (List Char × Seq) :=
  nameReadsFrom smp 1 (sortReadsByCountDesc d)

/-- The read dict actually emitted by `ProcessReadDict` (lines 1040-1047):
optionally merged, then restricted to counts meeting the minimum. -/
def effectiveReadDict (merge : Bool) (t minCount : Nat) (d : List (Seq × Nat)) :
    List (Seq × Nat) :=
  let d1 := if merge then MergeSimilarStrings d t else d
  if 1 < minCount then d1.filter (fun p => decide (minCount ≤ p.2)) else d1

/-- Embedding of `ProcessReadDict` (lines 1032-1062), returning the list of
(name, sequence) records it appends. -/
def ProcessReadDict (merge : Bool) (t minCount : Nat) (smp : Alias)
    (d : List (Seq × Nat)) : List (List Char × Seq) :=
  nameReads smp (effectiveReadDict merge t minCount d)

/-- Embedding of the per-sample renaming part of `ReMergeAlignedReads`
(lines 1119-1128): optional re-merge, then the same sorted emission. -/
def reMergeSampleReads (merge : Bool) (t : Nat) (smp : Alias)
    (d : List (Seq × Nat)) : List (List Char × Seq) :=
  nameReads smp (if merge then MergeSimilarStrings d t else d)

theorem nameReadsFrom_length (smp : Alias) :
    ∀ (k : Nat) (l : List (Seq × Nat)), (nameReadsFrom smp k l).length = l.length
  | _, [] => rfl
  | k, (read, count) :: rest => by
    rw [nameReadsFrom, List.length_cons, List.length_cons,
      nameReadsFrom_length smp (k + 1) rest]

theorem nameReadsFrom_getElem? (smp : Alias) :
    ∀ (l : List (Seq × Nat)) (k i : Nat) (c : Seq × Nat), l[i]? = some c →
      (nameReadsFrom smp k l)[i]? = some (readName smp (k + i) c.2, c.1)
  | [], k, i, c, hc => by simp at hc
  | (read, count) :: rest, k, 0, c, hc => by
    simp only [List.getElem?_cons_zero, Option.some.injEq] at hc
    rw [nameReadsFrom]
    simp only [List.getElem?_cons_zero, Option.some.injEq]
    rw [← hc]
    simp
  | (read, count) :: rest, k, i + 1, c, hc => by
    simp only [List.getElem?_cons_succ] at hc
    rw [nameReadsFrom]
    simp only [List.getElem?_cons_succ]
    have := nameReadsFrom_getElem? smp rest (k + 1) i c hc
    rw [this]
    congr 3
    omega

theorem sortReadsByCountDesc_pairwise (d : List (Seq × Nat)) :
    (sortReadsByCountDesc d).Pairwise (fun p q => q.2 ≤ p.2) := by
  have h : (d.mergeSort (fun p q => decide (q.2 ≤ p.2))).Pairwise
      (fun p q => decide (q.2 ≤ p.2) = true) :=
    List.sorted_mergeSort
      (by
        intro a b c hab hbc
        simp only [decide_eq_true_eq] at hab hbc ⊢
        omega)
      (by
        intro a b
        rcases Nat.le_total b.2 a.2 with h | h <;> simp [h])
      d
  exact h.imp (by intro a b hab; simpa using hab)

theorem sortReadsByCountDesc_perm (d : List (Seq × Nat)) :
    List.Perm (sortReadsByCountDesc d) d :=
  List.mergeSort_perm d _

/-- C10: for every read dictionary (both in `ProcessReadDict`, after the
optional merge and minimum-count filter, and in the re-merge after alignment),
the derived sequences are emitted in non-increasing order of count, the rank in
the k-th emitted name (0-based) is k+1 with that read's count, and rank 1
names a sequence of maximal count. -/
theorem processReadDict_ranked_by_count (smp : Alias) (d : List (Seq × Nat))
    (merge : Bool) (t minCount : Nat) :
    (ProcessReadDict merge t minCount smp d =
      nameReads smp (effectiveReadDict merge t minCount d)) ∧
    (reMergeSampleReads merge t smp d =
      nameReads smp (if merge then MergeSimilarStrings d t else d)) ∧
    (∀ e : List (Seq × Nat),
      (∀ (i j : Nat) (ci cj : Seq × Nat), i ≤ j →
        (sortReadsByCountDesc e)[i]? = some ci →
        (sortReadsByCountDesc e)[j]? = some cj →
        cj.2 ≤ ci.2) ∧
      (∀ (k : Nat) (c : Seq × Nat), (sortReadsByCountDesc e)[k]? = some c →
        (nameReads smp e)[k]? = some (readName smp (k + 1) c.2, c.1)) ∧
      (∀ q ∈ e, ∀ c0 : Seq × Nat, (sortReadsByCountDesc e)[0]? = some c0 →
        q.2 ≤ c0.2)) := by
  refine ⟨rfl, rfl, fun e => ⟨?_, ?_, ?_⟩⟩
  · intro i j ci cj hij hci hcj
    rcases List.getElem?_eq_some.mp hci with ⟨hi, hgi⟩
    rcases List.getElem?_eq_some.mp hcj with ⟨hj, hgj⟩
    rcases Nat.lt_or_ge i j with h | h
    · have hpw := (List.pairwise_iff_getElem).mp (sortReadsByCountDesc_pairwise e)
      have := hpw i j hi hj h
      rw [hgi, hgj] at this
      exact this
    · have hije : i = j := by omega
      subst hije
      rw [hgi] at hgj
      rw [hgj]
  · intro k c hc
    have h2 := nameReadsFrom_getElem? smp (sortReadsByCountDesc e) 1 k c hc
    rw [Nat.add_comm 1 k] at h2
    exact h2
  · intro q hq c0 hc0
    rcases List.getElem?_eq_some.mp hc0 with ⟨h0, hg0⟩
    have hq2 : q ∈ sortReadsByCountDesc e := ((sortReadsByCountDesc_perm e).mem_iff).mpr hq
    rcases List.getElem_of_mem hq2 with ⟨j, hj, hget⟩
    rcases Nat.eq_zero_or_pos j with hj0 | hj0
    · subst hj0
      rw [hget] at hg0
      rw [hg0]
    · have hpw := (List.pairwise_iff_getElem).mp (sortReadsByCountDesc_pairwise e)
      have := hpw 0 j h0 hj hj0
      rw [hget, hg0] at this
      exact this

/-- Witness for C10 at a concrete input: dict {AA: 2, TT: 5} with no merging
and no minimum count; TT (count 5) sorts first and AA's count 2 is bounded by
it. -/
theorem processReadDict_ranked_by_count_witness :
    (2 : Nat) ≤ ((['T', 'T'], 5) : Seq × Nat).2 :=
  ((processReadDict_ranked_by_count ['S'] [] false 0 1).2.2
      [(['A', 'A'], 2), (['T', 'T'], 5)]).2.2 (['A', 'A'], 2) (by decide)
    ((['T', 'T'], 5) : Seq × Nat)
    (by simp [sortReadsByCountDesc, List.mergeSort, List.merge])

/-! ### C4: repeat forbidding across consecutive windows
Embedding of the cross-window read-name bookkeeping: the swap of name sets and
the window-overlap test at phyloscanner.py lines 1205-1210, and the
`forbid_read_repeats` check of the unmerged-read path at lines 1328-1334. -/

/-- Embedding of `OverlapsLastWindow` (lines 1209-1210):
`(LastWindow[0] <= ThisWindow[0] <= LastWindow[1]) or
 (ThisWindow[0] <= LastWindow[0] <= ThisWindow[1])`. -/
def overlaps (w1 w2 : Int × Int) : Bool :=
  (decide (w1.1 ≤ w2.1) && decide (w2.1 ≤ w1.2)) ||
  (decide (w2.1 ≤ w1.1) && decide (w1.1 ≤ w2.2))

/-- Cross-window state for one bam file: the read names seen in the previous
window (`AllPatientsReadNamesInLastWindow[BamFile]`) and the previous window's
user coordinates (`LastWindow`); `none` models the initial `(-Inf, -Inf)`. -/
structure RepeatState where
  lastNames : List String
  lastWindow : Option (Int × Int)

/-- Whether the current window overlaps the previous one; with no previous
window (the initial `(-Inf, -Inf)`) the source's test is always false. -/
def currOverlap (st : RepeatState) (w : Int × Int) : Bool :=
  match st.lastWindow with
  | some lw => overlaps lw w
  | none => false

/-- Embedding of the per-read `forbid_read_repeats` check (lines 1328-1334):
the accumulator holds (names recorded this window, reads accepted so far).
A name already seen this window is skipped; otherwise it is recorded in this
window's set even if then rejected; it is rejected when the current window
overlaps the last one and the name was seen in the last window. -/
def repeatStep (ov : Bool) (lastNames : List String)
    (acc : List String × List String) (n : String) : List String × List String :=
  if acc.1.contains n then acc
  else (acc.1 ++ [n], if ov && lastNames.contains n then acc.2 else acc.2 ++ [n])

/-- Embedding of one window's pass for one bam file: fold the per-read check
over the window's read names, then swap the name sets and record this window
as the last one (lines 1205-1208). Returns (accepted names, next state). -/
def windowStep (st : RepeatState) (w : Int × Int) (names : List String) :
    List String × RepeatState :=
  let res := names.foldl (repeatStep (currOverlap st w) st.lastNames) ([], [])
  (res.2, ⟨res.1, some w⟩)

theorem repeatStep_fold_names (ov : Bool) (lastNames : List String) :
    ∀ (l : List String) (acc : List String × List String) (n : String),
      n ∈ (l.foldl (repeatStep ov lastNames) acc).1 ↔ n ∈ acc.1 ∨ n ∈ l := by
  intro l
  induction l with
  | nil => intro acc n; simp
  | cons a l ih =>
    intro acc n
    rw [List.foldl_cons, ih]
    rw [repeatStep]
    by_cases hc : acc.1.contains a = true
    · rw [if_pos hc]
      have ha : a ∈ acc.1 := by
        rw [List.contains_eq_any_beq] at hc
        simp only [List.any_eq_true, beq_iff_eq] at hc
        rcases hc with ⟨x, hx, rfl⟩
        exact hx
      constructor
      · rintro (h | h)
        · exact Or.inl h
        · exact Or.inr (List.mem_cons_of_mem _ h)
      · rintro (h | h)
        · exact Or.inl h
        · rcases List.mem_cons.1 h with rfl | h
          · exact Or.inl ha
          · exact Or.inr h
    · rw [if_neg hc]
      simp only [List.mem_append, List.mem_singleton, List.mem_cons]
      tauto

theorem repeatStep_fold_accepted_frame (ov : Bool) (lastNames : List String) :
    ∀ (l : List String) (acc : List String × List String) (n : String),
      n ∉ l → (n ∈ (l.foldl (repeatStep ov lastNames) acc).2 ↔ n ∈ acc.2) := by
  intro l
  induction l with
  | nil => intro acc n _; simp
  | cons a l ih =>
    intro acc n hn
    have hna : n ≠ a := fun h => hn (h ▸ List.mem_cons_self a l)
    have hnl : n ∉ l := fun h => hn (List.mem_cons_of_mem _ h)
    rw [List.foldl_cons, ih _ _ hnl, repeatStep]
    by_cases hc : acc.1.contains a = true
    · rw [if_pos hc]
    · rw [if_neg hc]
      by_cases hov : (ov && lastNames.contains a) = true
      · rw [if_pos hov]
      · rw [if_neg hov]
        simp only [List.mem_append, List.mem_singleton]
        constructor
        · rintro (h | h)
          · exact h
          · exact absurd h hna
        · exact Or.inl

theorem repeatStep_fold_accepted (ov : Bool) (lastNames : List String) :
    ∀ (l : List String) (acc : List String × List String) (n : String),
      l.Nodup → n ∈ l → n ∉ acc.1 →
      (n ∈ (l.foldl (repeatStep ov lastNames) acc).2 ↔
        n ∈ acc.2 ∨ ¬(ov = true ∧ n ∈ lastNames)) := by
  intro l
  induction l with
  | nil => intro acc n _ hn; cases hn
  | cons a l ih =>
    intro acc n hnd hn hnacc
    have hnda : a ∉ l := (List.nodup_cons.1 hnd).1
    have hndl : l.Nodup := (List.nodup_cons.1 hnd).2
    rw [List.foldl_cons, repeatStep]
    have hca : acc.1.contains a = true ↔ a ∈ acc.1 := by
      rw [List.contains_eq_any_beq]
      simp only [List.any_eq_true, beq_iff_eq]
      constructor
      · rintro ⟨x, hx, rfl⟩; exact hx
      · intro h; exact ⟨a, h, rfl⟩
    rcases List.mem_cons.1 hn with rfl | hnl
    · have hc : acc.1.contains n = false := by
        rw [← Bool.not_eq_true, hca]
        exact hnacc
      rw [hc, if_neg (by simp)]
      rw [repeatStep_fold_accepted_frame ov lastNames l _ n hnda]
      have hlc : lastNames.contains n = true ↔ n ∈ lastNames := by
        rw [List.contains_eq_any_beq]
        simp only [List.any_eq_true, beq_iff_eq]
        constructor
        · rintro ⟨x, hx, rfl⟩; exact hx
        · intro h; exact ⟨n, h, rfl⟩
      by_cases hov : (ov && lastNames.contains n) = true
      · rw [if_pos hov]
        simp only [Bool.and_eq_true] at hov
        have : ov = true ∧ n ∈ lastNames := ⟨hov.1, hlc.mp hov.2⟩
        simp [this]
      · rw [if_neg hov]
        simp only [Bool.and_eq_true, not_and] at hov
        simp only [List.mem_append, List.mem_singleton]
        constructor
        · intro _
          right
          rintro ⟨h1, h2⟩
          exact absurd (hlc.mpr h2) (by simpa [h1] using hov h1)
        · intro _
          exact Or.inr trivial
    · have hna : n ≠ a := fun h => hnda (h ▸ hnl)
      by_cases hc : acc.1.contains a = true
      · rw [if_pos hc]
        exact ih acc n hndl hnl hnacc
      · rw [if_neg hc]
        have hnacc2 : n ∉ acc.1 ++ [a] := by
          simp only [List.mem_append, List.mem_singleton]
          rintro (h | h)
          · exact hnacc h
          · exact hna h
        rw [ih _ n hndl hnl hnacc2]
        by_cases hov : (ov && lastNames.contains a) = true
        · rw [if_pos hov]
        · rw [if_neg hov]
          simp only [List.mem_append, List.mem_singleton]
          constructor
          · rintro ((h | h) | h)
            · exact Or.inl h
            · exact absurd h hna
            · exact Or.inr h
          · rintro (h | h)
            · exact Or.inl (Or.inl h)
            · exact Or.inr h

theorem windowStep_lastNames (st : RepeatState) (w : Int × Int)
    (names : List String) (n : String) :
    n ∈ (windowStep st w names).2.lastNames ↔ n ∈ names := by
  rw [windowStep]
  have := repeatStep_fold_names (currOverlap st w) st.lastNames names ([], []) n
  simpa using this

theorem windowStep_accepted (st : RepeatState) (w : Int × Int)
    (names : List String) (n : String) (hnd : names.Nodup) (hn : n ∈ names) :
    n ∈ (windowStep st w names).1 ↔
      ¬(currOverlap st w = true ∧ n ∈ st.lastNames) := by
  rw [windowStep]
  have := repeatStep_fold_accepted (currOverlap st w) st.lastNames names ([], []) n
    hnd hn (by simp)
  simpa using this

/-- C4: with repeat-forbidding on, a read name seen in window i is rejected in
window i+1 exactly when the two windows overlap (user coordinates); the
rejected name is still recorded in window i+1's name set, so the name
reappearing in window i+2 is accepted exactly when window i+2 does not overlap
window i+1, independently of any earlier state; only the immediately preceding
window's set is consulted. -/
theorem forbidReadRepeats_window_chain (st0 : RepeatState) (W1 W2 W3 : Int × Int)
    (N1 N2 N3 : List String) (n : String)
    (h1 : n ∈ N1) (h2 : n ∈ N2) (h3 : n ∈ N3)
    (hNd2 : N2.Nodup) (hNd3 : N3.Nodup) :
    (n ∈ ((windowStep st0 W1 N1).2).lastNames) ∧
    (n ∈ (windowStep (windowStep st0 W1 N1).2 W2 N2).1 ↔ overlaps W1 W2 = false) ∧
    (n ∈ ((windowStep (windowStep st0 W1 N1).2 W2 N2).2).lastNames) ∧
    (n ∈ (windowStep ((windowStep (windowStep st0 W1 N1).2 W2 N2).2) W3 N3).1 ↔
      overlaps W2 W3 = false) := by
  have hrec1 : n ∈ ((windowStep st0 W1 N1).2).lastNames :=
    (windowStep_lastNames st0 W1 N1 n).mpr h1
  have hrec2 : n ∈ ((windowStep (windowStep st0 W1 N1).2 W2 N2).2).lastNames :=
    (windowStep_lastNames _ W2 N2 n).mpr h2
  refine ⟨hrec1, ?_, hrec2, ?_⟩
  · rw [windowStep_accepted _ W2 N2 n hNd2 h2]
    have hov : currOverlap (windowStep st0 W1 N1).2 W2 = overlaps W1 W2 := rfl
    rw [hov]
    constructor
    · intro h
      rw [← Bool.not_eq_true]
      intro hb
      exact h ⟨hb, hrec1⟩
    · rintro h ⟨hb, _⟩
      rw [h] at hb
      cases hb
  · rw [windowStep_accepted _ W3 N3 n hNd3 h3]
    have hov : currOverlap ((windowStep (windowStep st0 W1 N1).2 W2 N2).2) W3 =
        overlaps W2 W3 := rfl
    rw [hov]
    constructor
    · intro h
      rw [← Bool.not_eq_true]
      intro hb
      exact h ⟨hb, hrec2⟩
    · rintro h ⟨hb, _⟩
      rw [h] at hb
      cases hb

/-- Witness for C4: the spec's example — windows (1,100), (50,150), (200,300)
and a read name appearing in all three: rejected in the second (overlap),
accepted in the third (no overlap with the second). -/
theorem forbidReadRepeats_window_chain_witness :
    ("r" ∈ ((windowStep ⟨[], none⟩ (1, 100) ["r"]).2).lastNames) ∧
    ("r" ∈ (windowStep (windowStep ⟨[], none⟩ (1, 100) ["r"]).2 (50, 150) ["r"]).1 ↔
      overlaps (1, 100) (50, 150) = false) ∧
    ("r" ∈ ((windowStep (windowStep ⟨[], none⟩ (1, 100) ["r"]).2 (50, 150) ["r"]).2).lastNames) ∧
    ("r" ∈ (windowStep ((windowStep (windowStep ⟨[], none⟩ (1, 100) ["r"]).2 (50, 150) ["r"]).2)
        (200, 300) ["r"]).1 ↔ overlaps (50, 150) (200, 300) = false) :=
  forbidReadRepeats_window_chain ⟨[], none⟩ (1, 100) (50, 150) (200, 300)
    ["r"] ["r"] ["r"] "r" (by simp) (by simp) (by simp) (by simp) (by simp)

/-! ### C5: paired-read merging and the disagreeing-overlaps side channel
Embedding of the `merge_paired_reads` branch of the window loop
(phyloscanner.py lines 1283-1309): the pending dict `AllReads`, the call to
`MergeReadPairOverWindow`, the deletion of pairs returning None or False, and
the recording of both mates in `DiscardedReadPairsDict` when
`--inspect-disagreeing-overlaps` is on. `MergeReadPairOverWindow` itself lives
in tools/phyloscanner_funcs.py (not in src/) and is modelled from spec section
4.2. -/

/-- A pseudo read: a name and its mapped bases (reference position, base).
Quality scores are omitted; quality trimming is a separate step (spec 4.2)
orthogonal to the overlap-disagreement rule. -/
structure PRead where
  name : String
  bases : List (Int × Char)
deriving DecidableEq

/-- The base a read holds at a reference position, if it covers it. -/
def coveredBase (r : PRead) (p : Int) : Option Char :=
  (r.bases.find? (fun b => b.1 == p)).map Prod.snd

/-- Modelled from the spec: whether the two mates cover some common position
with different bases (spec 4.2: "where both cover it and disagree, the whole
pair is discarded as unresolvable"). -/
def pairDisagrees (r1 r2 : PRead) : Bool :=
  r1.bases.any (fun b =>
    match coveredBase r2 b.1 with
    | some c => c != b.2
    | none => false)

/-- Result of `MergeReadPairOverWindow`: `nospan` is Python's None (pair not
usable for this window), `disagreeing` is Python's False (mates disagree on a
shared position), `merged` carries the merged pseudo read. -/
inductive MergeOutcome where
  | nospan
  | disagreeing
  | merged (r : PRead)

/-- Modelled from the spec: `PseudoRead.MergeReadPairOverWindow` (section 4.2)
— where both mates cover a position and agree, keep it; where only one covers
it, keep that one; where both cover it and disagree, fail (False); a merged
pair with no base in the window yields None. -/
def MergeReadPairOverWindow (r1 r2 : PRead) (wl wr : Int) : MergeOutcome :=
  if pairDisagrees r1 r2 then .disagreeing
  else
    let allBases := r1.bases ++ r2.bases.filter (fun b => (coveredBase r1 b.1).isNone)
    if allBases.any (fun b => decide (wl ≤ b.1) && decide (b.1 ≤ wr)) then
      .merged ⟨r1.name, allBases⟩
    else .nospan

/-- State of the pair-merging pass for one bam file: the pending dict
`AllReads` and the side channel `DiscardedReadPairsDict[BamFileBasename]`. -/
structure PairState where
  allReads : List (String × PRead)
  discarded : List PRead

/-- First entry of the pending dict with the given read name (a Python dict
lookup; insertion keeps keys unique). -/
def lookupRead : List (String × PRead) → String → Option (String × PRead)
  | [], _ => none
  | p :: t, n => if p.1 = n then some p else lookupRead t n

/-- Handling of the merge result (lines 1295-1303): on None delete the pair,
on False delete the pair and, when inspecting, record both mates in the side
channel; on success store the merged read under the pair's name. -/
def applyMerge (inspect : Bool) (st : PairState) (r r1 : PRead) :
    MergeOutcome → PairState
  | .nospan => ⟨st.allReads.filter (fun p => decide (p.1 ≠ r.name)), st.discarded⟩
  | .disagreeing =>
      ⟨st.allReads.filter (fun p => decide (p.1 ≠ r.name)),
        if inspect then st.discarded ++ [r1, r] else st.discarded⟩
  | .merged m =>
      ⟨st.allReads.map (fun p => if p.1 = r.name then (p.1, m) else p),
        st.discarded⟩

/-- Dispatch on whether the mate is already pending (lines 1286-1309). -/
def applyLookup (inspect : Bool) (wl wr : Int) (st : PairState) (r : PRead) :
    Option (String × PRead) → PairState
  | some (_, r1) => applyMerge inspect st r r1 (MergeReadPairOverWindow r1 r wl wr)
  | none => ⟨st.allReads ++ [(r.name, r)], st.discarded⟩

/-- Embedding of the per-read body at lines 1283-1309: if the mate is pending,
merge and apply the outcome, otherwise record the read as pending. -/
def pairStep (inspect : Bool) (wl wr : Int) (st : PairState) (r : PRead) :
    PairState :=
  applyLookup inspect wl wr st r (lookupRead st.allReads r.name)

/-- The pair-merging pass over all fetched reads of a window, starting from an
empty pending dict and an empty side channel. -/
def processPairs (inspect : Bool) (wl wr : Int) (reads : List PRead) : PairState :=
  reads.foldl (pairStep inspect wl wr) ⟨[], []⟩

theorem lookupRead_filter_ne (n m : String) (h : n ≠ m) :
    ∀ l : List (String × PRead),
      lookupRead (l.filter (fun p => decide (p.1 ≠ m))) n = lookupRead l n
  | [] => rfl
  | (k, v) :: t => by
    rw [List.filter_cons]
    by_cases hm : k = m
    · rw [if_neg (by simp [hm])]
      rw [lookupRead_filter_ne n m h t, lookupRead,
        if_neg (by simp; exact fun h2 => h (by rw [← h2, hm]))]
    · rw [if_pos (by simp [hm])]
      rw [lookupRead, lookupRead]
      by_cases hk : k = n
      · rw [if_pos hk, if_pos hk]
      · rw [if_neg hk, if_neg hk]
        exact lookupRead_filter_ne n m h t

theorem lookupRead_filter_self (n : String) :
    ∀ l : List (String × PRead),
      lookupRead (l.filter (fun p => decide (p.1 ≠ n))) n = none
  | [] => rfl
  | (k, v) :: t => by
    rw [List.filter_cons]
    by_cases hk : k = n
    · rw [if_neg (by simp [hk])]
      exact lookupRead_filter_self n t
    · rw [if_pos (by simp [hk]), lookupRead, if_neg hk]
      exact lookupRead_filter_self n t

theorem lookupRead_map_update (n m : String) (w : PRead) (h : n ≠ m) :
    ∀ l : List (String × PRead),
      lookupRead (l.map (fun p => if p.1 = m then (p.1, w) else p)) n =
        lookupRead l n
  | [] => rfl
  | (k, v) :: t => by
    rw [List.map_cons]
    by_cases hm : k = m
    · rw [if_pos hm, lookupRead, lookupRead,
        if_neg (show ¬(k, w).1 = n from fun h2 => h (by rw [← h2, hm])),
        if_neg (show ¬(k, v).1 = n from fun h2 => h (by rw [← h2, hm]))]
      exact lookupRead_map_update n m w h t
    · rw [if_neg hm, lookupRead, lookupRead]
      by_cases hk : k = n
      · rw [if_pos hk, if_pos hk]
      · rw [if_neg hk, if_neg hk]
        exact lookupRead_map_update n m w h t

theorem lookupRead_append_single_ne (n k : String) (v : PRead) (h : n ≠ k) :
    ∀ l : List (String × PRead),
      lookupRead (l ++ [(k, v)]) n = lookupRead l n
  | [] => by
    simp only [List.nil_append, lookupRead]
    rw [if_neg (fun h2 => h (h2.symm))]
  | (k2, v2) :: t => by
    rw [List.cons_append, lookupRead, lookupRead]
    by_cases hk : k2 = n
    · rw [if_pos hk, if_pos hk]
    · rw [if_neg hk, if_neg hk]
      exact lookupRead_append_single_ne n k v h t

theorem lookupRead_append_single_self (n : String) (v : PRead) :
    ∀ l : List (String × PRead), lookupRead l n = none →
      lookupRead (l ++ [(n, v)]) n = some (n, v)
  | [], _ => by
    rw [List.nil_append, lookupRead, if_pos rfl]
  | (k, v2) :: t, h => by
    rw [lookupRead] at h
    by_cases hk : k = n
    · rw [if_pos hk] at h
      cases h
    · rw [if_neg hk] at h
      rw [List.cons_append, lookupRead, if_neg hk]
      exact lookupRead_append_single_self n v t h

theorem pairStep_frame (inspect : Bool) (wl wr : Int) (st : PairState)
    (r : PRead) (n : String) (h : r.name ≠ n) :
    lookupRead (pairStep inspect wl wr st r).allReads n =
      lookupRead st.allReads n := by
  rw [pairStep]
  cases hl : lookupRead st.allReads r.name with
  | none =>
    rw [applyLookup]
    exact lookupRead_append_single_ne n r.name r (fun h2 => h h2.symm) st.allReads
  | some p =>
    obtain ⟨k, r1⟩ := p
    rw [applyLookup]
    cases MergeReadPairOverWindow r1 r wl wr with
    | nospan =>
      rw [applyMerge]
      exact lookupRead_filter_ne n r.name (fun h2 => h h2.symm) st.allReads
    | disagreeing =>
      rw [applyMerge]
      exact lookupRead_filter_ne n r.name (fun h2 => h h2.symm) st.allReads
    | merged m =>
      rw [applyMerge]
      exact lookupRead_map_update n r.name m (fun h2 => h h2.symm) st.allReads

theorem pairStep_discarded_mono (inspect : Bool) (wl wr : Int) (st : PairState)
    (r : PRead) (x : PRead) (hx : x ∈ st.discarded) :
    x ∈ (pairStep inspect wl wr st r).discarded := by
  rw [pairStep]
  cases hl : lookupRead st.allReads r.name with
  | none =>
    rw [applyLookup]
    exact hx
  | some p =>
    obtain ⟨k, r1⟩ := p
    rw [applyLookup]
    cases MergeReadPairOverWindow r1 r wl wr with
    | nospan =>
      rw [applyMerge]
      exact hx
    | disagreeing =>
      rw [applyMerge]
      by_cases hi : inspect = true
      · show x ∈ (if inspect then st.discarded ++ [r1, r] else st.discarded)
        rw [if_pos hi]
        exact List.mem_append_left _ hx
      · show x ∈ (if inspect then st.discarded ++ [r1, r] else st.discarded)
        rw [if_neg hi]
        exact hx
    | merged m =>
      rw [applyMerge]
      exact hx

theorem pairStep_fold_frame (inspect : Bool) (wl wr : Int) (n : String) :
    ∀ (l : List PRead) (st : PairState), (∀ x ∈ l, x.name ≠ n) →
      lookupRead ((l.foldl (pairStep inspect wl wr) st).allReads) n =
        lookupRead st.allReads n
  | [], st, _ => rfl
  | r :: t, st, h => by
    rw [List.foldl_cons, pairStep_fold_frame inspect wl wr n t _
      (fun x hx => h x (List.mem_cons_of_mem _ hx)),
      pairStep_frame inspect wl wr st r n (h r (List.mem_cons_self _ _))]

theorem pairStep_fold_discarded_mono (inspect : Bool) (wl wr : Int) :
    ∀ (l : List PRead) (st : PairState) (x : PRead), x ∈ st.discarded →
      x ∈ (l.foldl (pairStep inspect wl wr) st).discarded
  | [], _, _, hx => hx
  | r :: t, st, x, hx => by
    rw [List.foldl_cons]
    exact pairStep_fold_discarded_mono inspect wl wr t _ x
      (pairStep_discarded_mono inspect wl wr st r x hx)

theorem disagree_run_core (inspect : Bool) (wl wr : Int) (n : String)
    (B C : List PRead) (ra rb : PRead) (stA : PairState)
    (hstA : lookupRead stA.allReads n = none)
    (hra : ra.name = n) (hrb : rb.name = n)
    (hB : ∀ x ∈ B, x.name ≠ n) (hC : ∀ x ∈ C, x.name ≠ n)
    (hdis2 : pairDisagrees ra rb = true) :
    lookupRead ((C.foldl (pairStep inspect wl wr)
        (pairStep inspect wl wr (B.foldl (pairStep inspect wl wr)
          (pairStep inspect wl wr stA ra)) rb)).allReads) n = none ∧
    (inspect = true →
      ra ∈ (C.foldl (pairStep inspect wl wr)
        (pairStep inspect wl wr (B.foldl (pairStep inspect wl wr)
          (pairStep inspect wl wr stA ra)) rb)).discarded ∧
      rb ∈ (C.foldl (pairStep inspect wl wr)
        (pairStep inspect wl wr (B.foldl (pairStep inspect wl wr)
          (pairStep inspect wl wr stA ra)) rb)).discarded) := by
  have hmerge : MergeReadPairOverWindow ra rb wl wr = .disagreeing := by
    rw [MergeReadPairOverWindow, if_pos hdis2]
  have hstep1 : pairStep inspect wl wr stA ra =
      ⟨stA.allReads ++ [(n, ra)], stA.discarded⟩ := by
    rw [pairStep, hra, hstA, applyLookup, hra]
  have hlook1 : lookupRead (pairStep inspect wl wr stA ra).allReads n =
      some (n, ra) := by
    rw [hstep1]
    exact lookupRead_append_single_self n ra stA.allReads hstA
  have hlookB : lookupRead ((B.foldl (pairStep inspect wl wr)
      (pairStep inspect wl wr stA ra)).allReads) n = some (n, ra) := by
    rw [pairStep_fold_frame inspect wl wr n B _ hB]
    exact hlook1
  have hstep2 : pairStep inspect wl wr (B.foldl (pairStep inspect wl wr)
      (pairStep inspect wl wr stA ra)) rb =
      ⟨(B.foldl (pairStep inspect wl wr)
          (pairStep inspect wl wr stA ra)).allReads.filter
            (fun p => decide (p.1 ≠ n)),
        if inspect then (B.foldl (pairStep inspect wl wr)
          (pairStep inspect wl wr stA ra)).discarded ++ [ra, rb]
        else (B.foldl (pairStep inspect wl wr)
          (pairStep inspect wl wr stA ra)).discarded⟩ := by
    rw [pairStep, hrb, hlookB, applyLookup, hmerge, applyMerge, hrb]
  constructor
  · rw [pairStep_fold_frame inspect wl wr n C _ hC, hstep2]
    exact lookupRead_filter_self n _
  · intro hi
    have hmem : ra ∈ (pairStep inspect wl wr (B.foldl (pairStep inspect wl wr)
        (pairStep inspect wl wr stA ra)) rb).discarded ∧
        rb ∈ (pairStep inspect wl wr (B.foldl (pairStep inspect wl wr)
          (pairStep inspect wl wr stA ra)) rb).discarded := by
      rw [hstep2]
      simp only [if_pos hi]
      exact ⟨List.mem_append_right _ (by simp),
        List.mem_append_right _ (by simp)⟩
    exact ⟨pairStep_fold_discarded_mono inspect wl wr C _ ra hmem.1,
      pairStep_fold_discarded_mono inspect wl wr C _ rb hmem.2⟩

/-- C5: in paired-read merging mode, when the two mates of a pair overlap and
disagree at some covered position, the pair is deleted from the pending-read
dictionary (so it contributes nothing to the window's unique-read multiset),
and when `--inspect-disagreeing-overlaps` is on, both mates are recorded in the
side channel for that bam file. -/
theorem disagreeingPair_discarded (inspect : Bool) (wl wr : Int)
    (A B C : List PRead) (ra rb : PRead) (n : String)
    (hra : ra.name = n) (hrb : rb.name = n)
    (hA : ∀ x ∈ A, x.name ≠ n) (hB : ∀ x ∈ B, x.name ≠ n)
    (hC : ∀ x ∈ C, x.name ≠ n)
    (hdis : ∃ (p : Int) (c1 c2 : Char), coveredBase ra p = some c1 ∧
      coveredBase rb p = some c2 ∧ c1 ≠ c2) :
    lookupRead (processPairs inspect wl wr (A ++ ra :: B ++ rb :: C)).allReads n
      = none ∧
    (inspect = true →
      ra ∈ (processPairs inspect wl wr (A ++ ra :: B ++ rb :: C)).discarded ∧
      rb ∈ (processPairs inspect wl wr (A ++ ra :: B ++ rb :: C)).discarded) := by
  have hdis2 : pairDisagrees ra rb = true := by
    rcases hdis with ⟨p, c1, c2, h1, h2, hne⟩
    rw [pairDisagrees, List.any_eq_true]
    rw [coveredBase] at h1
    cases hf : ra.bases.find? (fun b => b.1 == p) with
    | none => rw [hf] at h1; cases h1
    | some b =>
      rw [hf] at h1
      simp at h1
      have hbp : b.1 = p := by
        have := List.find?_some hf
        simpa using this
      refine ⟨b, List.mem_of_find?_eq_some hf, ?_⟩
      rw [hbp, h2]
      simp only [bne_iff_ne]
      rw [h1]
      exact fun h3 => hne h3.symm
  have hstA : lookupRead ((A.foldl (pairStep inspect wl wr)
      (⟨[], []⟩ : PairState)).allReads) n = none := by
    rw [pairStep_fold_frame inspect wl wr n A _ hA]
    rfl
  have hfinal : processPairs inspect wl wr (A ++ ra :: B ++ rb :: C) =
      C.foldl (pairStep inspect wl wr)
        (pairStep inspect wl wr
          (B.foldl (pairStep inspect wl wr)
            (pairStep inspect wl wr
              (A.foldl (pairStep inspect wl wr) ⟨[], []⟩) ra)) rb) := by
    rw [processPairs, List.foldl_append, List.foldl_cons, List.foldl_append,
      List.foldl_cons]
  rw [hfinal]
  exact disagree_run_core inspect wl wr n B C ra rb
    (A.foldl (pairStep inspect wl wr) ⟨[], []⟩) hstA hra hrb hB hC hdis2

/-- Witness for C5: the spec's example pair — mates over positions 1-5 and
4-10 disagreeing at position 4 — is deleted and both mates are recorded in the
side channel. -/
theorem disagreeingPair_discarded_witness :
    lookupRead (processPairs true 1 10
        ([] ++ (⟨"p", [(1, 'A'), (4, 'C')]⟩ : PRead) :: [] ++
          (⟨"p", [(4, 'G'), (10, 'T')]⟩ : PRead) :: [])).allReads "p" = none ∧
    (true = true →
      (⟨"p", [(1, 'A'), (4, 'C')]⟩ : PRead) ∈ (processPairs true 1 10
        ([] ++ (⟨"p", [(1, 'A'), (4, 'C')]⟩ : PRead) :: [] ++
          (⟨"p", [(4, 'G'), (10, 'T')]⟩ : PRead) :: [])).discarded ∧
      (⟨"p", [(4, 'G'), (10, 'T')]⟩ : PRead) ∈ (processPairs true 1 10
        ([] ++ (⟨"p", [(1, 'A'), (4, 'C')]⟩ : PRead) :: [] ++
          (⟨"p", [(4, 'G'), (10, 'T')]⟩ : PRead) :: [])).discarded) :=
  disagreeingPair_discarded true 1 10 [] [] []
    ⟨"p", [(1, 'A'), (4, 'C')]⟩ ⟨"p", [(4, 'G'), (10, 'T')]⟩ "p" rfl rfl
    (by simp) (by simp) (by simp)
    ⟨4, 'C', 'G', by rfl, by rfl, by decide⟩

/-! ### C6: round-trip of the naming rule
Embedding of the parse of derived sequence names: the regex
`SampleRegex = re.compile('_read_\d+_count_\d+$')` (phyloscanner.py line 1066)
applied with `re.search` (leftmost match, anchored at the end of the string) at
lines 1076-1081, and the count extraction `int(seq.id.rsplit('_',1)[1])`.
Since the regex is anchored at `$` and `\d` cannot match `_`, a match at a
given start position is forced: `_read_`, then the maximal digit run, then
`_count_`, then digits to the end; `re.search` returns the leftmost such
position. -/

/-- Strip a literal from the front of a string, returning the remainder. -/
def chopLit : List Char → List Char → Option (List Char)
  | [], s => some s
  | _ :: _, [] => none
  | p :: ps, c :: cs => if c = p then chopLit ps cs else none

/-- Whether the regex matches at this position, given the maximal digit run
`d1` after `_read_` and the result of stripping `_count_` from what follows:
the remainder must be a nonempty digit string reaching the end (`\d+$`). -/
def matchesAfterCount (d1 : List Char) : Option (List Char) → Bool
  | none => false
  | some d2 => decide (d1 ≠ []) && decide (d2 ≠ []) && d2.all Char.isDigit

/-- Continuation of the match after the literal `_read_` was stripped. -/
def matchesAfterRead : Option (List Char) → Bool
  | none => false
  | some rest =>
      matchesAfterCount (rest.takeWhile Char.isDigit)
        (chopLit uCount (rest.dropWhile Char.isDigit))

/-- Whether `_read_\d+_count_\d+$` matches the whole of `s` (i.e. at this
start position, reaching the end of the string). -/
def matchesTail (s : List Char) : Bool := matchesAfterRead (chopLit uRead s)

/-- Embedding of `re.search`: try each start position from the left; on a
match return (prefix before the match, matched region). -/
def reSearchAux : List Char → List Char → Option (List Char × List Char)
  | pre, [] => if matchesTail [] then some (pre, []) else none
  | pre, c :: rest =>
    if matchesTail (c :: rest) then some (pre, c :: rest)
    else reSearchAux (pre ++ [c]) rest

/-- Leftmost match of the naming-rule regex in a sequence id. -/
def reSearch (s : List Char) : Option (List Char × List Char) := reSearchAux [] s

/-- Embedding of `seq.id.rsplit('_',1)[1]`: the part after the last `_`. -/
def rsplitLast (s : List Char) : List Char :=
  (s.reverse.takeWhile (fun c => decide (c ≠ '_'))).reverse

/-- Decimal parse, as Python's `int` on a digit string. -/
def parseDigitsAux : Nat → List Char → Nat
  | acc, [] => acc
  | acc, c :: cs => parseDigitsAux (acc * 10 + (c.toNat - 48)) cs

/-- Decimal parse of a digit string. -/
def parseDigits (l : List Char) : Nat := parseDigitsAux 0 l

/-- Assembly of the parsed (sample alias, count) from the search result. -/
def parseSeqIdGo (id : List Char) : Option (List Char × List Char) →
    Option (List Char × Nat)
  | some (pre, _) => some (pre, parseDigits (rsplitLast id))
  | none => none

/-- Embedding of the name parse at lines 1076-1081: on a regex match, the
sample name is the id up to the match start, and the count is the integer
after the last underscore. -/
def parseSeqId (id : List Char) : Option (List Char × Nat) :=
  parseSeqIdGo id (reSearch id)

theorem chopLit_eq_some :
    ∀ (pre s r : List Char), chopLit pre s = some r ↔ s = pre ++ r
  | [], s, r => by
    rw [chopLit]
    simp [eq_comm]
  | p :: ps, [], r => by
    rw [chopLit]
    simp
  | p :: ps, c :: cs, r => by
    rw [chopLit]
    by_cases hc : c = p
    · rw [if_pos hc, chopLit_eq_some ps cs r]
      subst hc
      simp
    · rw [if_neg hc]
      simp only [List.cons_append, List.cons.injEq]
      constructor
      · intro h
        cases h
      · rintro ⟨h1, h2⟩
        exact absurd h1 hc

theorem mem_takeWhile_pred (p : Char → Bool) :
    ∀ l : List Char, ∀ c ∈ l.takeWhile p, p c = true
  | [], c, hc => by cases hc
  | a :: l, c, hc => by
    by_cases ha : p a = true
    · rw [List.takeWhile_cons_of_pos ha] at hc
      rcases List.mem_cons.1 hc with rfl | hc
      · exact ha
      · exact mem_takeWhile_pred p l c hc
    · rw [List.takeWhile_cons_of_neg (by simpa using ha)] at hc
      cases hc

theorem takeWhile_all_append (p : Char → Bool) :
    ∀ (l : List Char) (x : Char) (r : List Char),
      (∀ c ∈ l, p c = true) → p x = false →
      (l ++ x :: r).takeWhile p = l ∧ (l ++ x :: r).dropWhile p = x :: r
  | [], x, r, _, hx => by
    rw [List.nil_append]
    constructor
    · rw [List.takeWhile_cons_of_neg (by simp [hx])]
    · rw [List.dropWhile_cons_of_neg (by simp [hx])]
  | a :: l, x, r, hl, hx => by
    have ha : p a = true := hl a (List.mem_cons_self _ _)
    have hrest := takeWhile_all_append p l x r
      (fun c hc => hl c (List.mem_cons_of_mem _ hc)) hx
    rw [List.cons_append]
    constructor
    · rw [List.takeWhile_cons_of_pos ha, hrest.1]
    · rw [List.dropWhile_cons_of_pos ha, hrest.2]

theorem matchesTail_iff (s : List Char) :
    matchesTail s = true ↔
      ∃ d1 d2 : List Char, s = uRead ++ d1 ++ uCount ++ d2 ∧
        d1 ≠ [] ∧ (∀ c ∈ d1, c.isDigit = true) ∧
        d2 ≠ [] ∧ (∀ c ∈ d2, c.isDigit = true) := by
  constructor
  · intro h
    rw [matchesTail] at h
    cases hc1 : chopLit uRead s with
    | none => rw [hc1, matchesAfterRead] at h; cases h
    | some rest =>
      rw [hc1, matchesAfterRead] at h
      cases hc2 : chopLit uCount (rest.dropWhile Char.isDigit) with
      | none => rw [hc2, matchesAfterCount] at h; cases h
      | some d2 =>
        rw [hc2, matchesAfterCount] at h
        simp only [Bool.and_eq_true, decide_eq_true_eq, List.all_eq_true] at h
        refine ⟨rest.takeWhile Char.isDigit, d2, ?_, ?_, ?_, ?_, ?_⟩
        · have hs : s = uRead ++ rest := (chopLit_eq_some uRead s rest).mp hc1
          have hdw : rest.dropWhile Char.isDigit = uCount ++ d2 :=
            (chopLit_eq_some uCount _ d2).mp hc2
          rw [hs]
          conv_lhs => rw [← List.takeWhile_append_dropWhile Char.isDigit rest]
          rw [hdw]
          simp [List.append_assoc]
        · exact h.1.1
        · exact fun c hc => mem_takeWhile_pred Char.isDigit rest c hc
        · exact h.1.2
        · exact h.2
  · rintro ⟨d1, d2, rfl, hd1, hd1d, hd2, hd2d⟩
    rw [matchesTail]
    have hc1 : chopLit uRead (uRead ++ d1 ++ uCount ++ d2) =
        some (d1 ++ uCount ++ d2) := by
      rw [chopLit_eq_some]
      simp [List.append_assoc]
    rw [hc1, matchesAfterRead]
    have hsplit := takeWhile_all_append Char.isDigit d1 '_'
      (['c', 'o', 'u', 'n', 't', '_'] ++ d2) hd1d (by decide)
    have hshape : d1 ++ uCount ++ d2 =
        d1 ++ '_' :: (['c', 'o', 'u', 'n', 't', '_'] ++ d2) := by
      simp [uCount, List.append_assoc]
    rw [hshape, hsplit.1, hsplit.2]
    have hc2 : chopLit uCount ('_' :: (['c', 'o', 'u', 'n', 't', '_'] ++ d2)) =
        some d2 := by
      rw [chopLit_eq_some]
      simp [uCount]
    rw [hc2, matchesAfterCount]
    simp only [Bool.and_eq_true, decide_eq_true_eq, List.all_eq_true]
    exact ⟨⟨hd1, hd2⟩, hd2d⟩

theorem digits_underscore_inj :
    ∀ (d e u v : List Char), (∀ c ∈ d, c.isDigit = true) →
      (∀ c ∈ e, c.isDigit = true) →
      d ++ '_' :: u = e ++ '_' :: v → d = e ∧ u = v
  | [], [], u, v, _, _, h => by
    simp only [List.nil_append, List.cons.injEq] at h
    exact ⟨rfl, h.2⟩
  | [], c2 :: e2, u, v, _, he, h => by
    simp only [List.nil_append, List.cons_append, List.cons.injEq] at h
    have := he c2 (List.mem_cons_self _ _)
    rw [← h.1] at this
    cases this
  | c :: d2, [], u, v, hd, _, h => by
    simp only [List.nil_append, List.cons_append, List.cons.injEq] at h
    have := hd c (List.mem_cons_self _ _)
    rw [h.1] at this
    cases this
  | c :: d2, c2 :: e2, u, v, hd, he, h => by
    simp only [List.cons_append, List.cons.injEq] at h
    have := digits_underscore_inj d2 e2 u v
      (fun x hx => hd x (List.mem_cons_of_mem _ hx))
      (fun x hx => he x (List.mem_cons_of_mem _ hx)) h.2
    exact ⟨by rw [h.1, this.1], this.2⟩

theorem matchesTail_append_false (a2 : List Char) (ha : a2 ≠ [])
    (d1 d2 : List Char) (hd1d : ∀ c ∈ d1, c.isDigit = true)
    (hd2d : ∀ c ∈ d2, c.isDigit = true) :
    matchesTail (a2 ++ (uRead ++ d1 ++ uCount ++ d2)) = false := by
  rw [← Bool.not_eq_true, matchesTail_iff]
  rintro ⟨e1, e2, heq, he1, he1d, he2, he2d⟩
  have hrev := congrArg List.reverse heq
  have hcu : uCount.reverse = '_' :: ['t', 'n', 'u', 'o', 'c', '_'] := by decide
  have hru : uRead.reverse = '_' :: ['d', 'a', 'e', 'r', '_'] := by decide
  simp only [List.reverse_append, List.append_assoc, hcu, hru,
    List.cons_append, List.nil_append] at hrev
  have hinj1 := digits_underscore_inj d2.reverse e2.reverse _ _
    (fun c hc => hd2d c (List.mem_reverse.mp hc))
    (fun c hc => he2d c (List.mem_reverse.mp hc)) hrev
  have hrest := hinj1.2
  simp only [List.cons.injEq, true_and] at hrest
  have hinj2 := digits_underscore_inj d1.reverse e1.reverse _ _
    (fun c hc => hd1d c (List.mem_reverse.mp hc))
    (fun c hc => he1d c (List.mem_reverse.mp hc)) hrest
  have hlen := congrArg List.length hinj2.2
  simp only [List.length_append, List.length_cons, List.length_reverse,
    List.length_nil] at hlen
  have ha0 : a2.length = 0 := by omega
  exact ha (List.eq_nil_of_length_eq_zero ha0)

theorem reSearchAux_found (pre s : List Char) (h : matchesTail s = true) :
    reSearchAux pre s = some (pre, s) := by
  cases s with
  | nil => rw [reSearchAux, if_pos h]
  | cons c rest => rw [reSearchAux, if_pos h]

theorem reSearchAux_block (d1 d2 : List Char) (hd1 : d1 ≠ [])
    (hd1d : ∀ c ∈ d1, c.isDigit = true) (hd2 : d2 ≠ [])
    (hd2d : ∀ c ∈ d2, c.isDigit = true) :
    ∀ (a2 pre : List Char),
      reSearchAux pre (a2 ++ (uRead ++ d1 ++ uCount ++ d2)) =
        some (pre ++ a2, uRead ++ d1 ++ uCount ++ d2)
  | [], pre => by
    rw [List.nil_append, List.append_nil,
      reSearchAux_found pre _ ((matchesTail_iff _).mpr
        ⟨d1, d2, rfl, hd1, hd1d, hd2, hd2d⟩)]
  | c :: a3, pre => by
    have hfalse : matchesTail (c :: (a3 ++ (uRead ++ d1 ++ uCount ++ d2))) =
        false := by
      have h0 := matchesTail_append_false (c :: a3) (by simp) d1 d2 hd1d hd2d
      rwa [List.cons_append] at h0
    rw [List.cons_append, reSearchAux, if_neg (by rw [hfalse]; decide),
      reSearchAux_block d1 d2 hd1 hd1d hd2 hd2d a3 (pre ++ [c]),
      List.append_assoc, List.singleton_append]

theorem digitChar_isDigit (d : Nat) (h : d < 10) :
    (digitChar d).isDigit = true := by
  interval_cases d <;> decide

theorem digitChar_toNat (d : Nat) (h : d < 10) :
    (digitChar d).toNat = 48 + d := by
  interval_cases d <;> decide

theorem natDigits_all_digit (n : Nat) : ∀ c ∈ natDigits n, c.isDigit = true := by
  induction n using Nat.strong_induction_on with
  | _ n ih =>
    rw [natDigits]
    by_cases h : n < 10
    · rw [dif_pos h]
      intro c hc
      rcases List.mem_singleton.mp hc with rfl
      exact digitChar_isDigit n h
    · rw [dif_neg h]
      intro c hc
      rcases List.mem_append.1 hc with hc | hc
      · exact ih (n / 10) (Nat.div_lt_self (by omega) (by omega)) c hc
      · rcases List.mem_singleton.mp hc with rfl
        exact digitChar_isDigit (n % 10) (Nat.mod_lt _ (by omega))

theorem natDigits_ne_nil (n : Nat) : natDigits n ≠ [] := by
  rw [natDigits]
  by_cases h : n < 10
  · rw [dif_pos h]
    simp
  · rw [dif_neg h]
    simp

theorem parseDigitsAux_cons (acc : Nat) (c : Char) (cs : List Char) :
    parseDigitsAux acc (c :: cs) = parseDigitsAux (acc * 10 + (c.toNat - 48)) cs :=
  rfl

theorem parseDigitsAux_nil (acc : Nat) : parseDigitsAux acc [] = acc := rfl

theorem parseDigitsAux_append :
    ∀ (l1 l2 : List Char) (acc : Nat),
      parseDigitsAux acc (l1 ++ l2) = parseDigitsAux (parseDigitsAux acc l1) l2
  | [], l2, acc => rfl
  | c :: l1, l2, acc => by
    rw [List.cons_append, parseDigitsAux_cons, parseDigitsAux_cons,
      parseDigitsAux_append l1 l2 _]

theorem parseDigits_natDigits (n : Nat) : parseDigits (natDigits n) = n := by
  induction n using Nat.strong_induction_on with
  | _ n ih =>
    rw [parseDigits, natDigits]
    by_cases h : n < 10
    · rw [dif_pos h, parseDigitsAux_cons, parseDigitsAux_nil,
        digitChar_toNat n h]
      omega
    · rw [dif_neg h, parseDigitsAux_append]
      have hdiv := ih (n / 10) (Nat.div_lt_self (by omega) (by omega))
      rw [parseDigits] at hdiv
      rw [hdiv, parseDigitsAux_cons, parseDigitsAux_nil,
        digitChar_toNat (n % 10) (Nat.mod_lt _ (by omega))]
      omega

theorem digit_ne_underscore (c : Char) (h : c.isDigit = true) : c ≠ '_' := by
  intro h2
  rw [h2] at h
  exact absurd h (by decide)

theorem rsplitLast_append (y d : List Char) (hd : ∀ c ∈ d, c ≠ '_') :
    rsplitLast (y ++ '_' :: d) = d := by
  rw [rsplitLast]
  have hrev : (y ++ '_' :: d).reverse = d.reverse ++ '_' :: y.reverse := by
    simp
  rw [hrev, (takeWhile_all_append (fun c => decide (c ≠ '_')) d.reverse '_'
      y.reverse
      (fun c hc => by simpa using hd c (List.mem_reverse.mp hc))
      (by simp)).1,
    List.reverse_reverse]

/-- C6: every derived sequence name has the form
`<alias>_read_<rank>_count_<count>`, and parsing such a name with the
naming-rule regex (leftmost match of `_read_\d+_count_\d+$`) plus
`rsplit('_',1)[1]` recovers exactly the sample alias and the integer count used
to build it, for every alias; in particular this holds for every name emitted
by the read-naming pipeline. -/
theorem seqName_roundTrip :
    (∀ (smp : Alias) (rank count : Nat),
      parseSeqId (readName smp rank count) = some (smp, count)) ∧
    (∀ (smp : Alias) (d : List (Seq × Nat)) (p : List Char × Seq),
      p ∈ nameReads smp d →
      ∃ (k c : Nat), p.1 = readName smp (k + 1) c ∧
        parseSeqId p.1 = some (smp, c)) := by
  have hpart1 : ∀ (smp : Alias) (rank count : Nat),
      parseSeqId (readName smp rank count) = some (smp, count) := by
    intro smp rank count
    have hsearch : reSearch (readName smp rank count) =
        some (smp, uRead ++ natDigits rank ++ uCount ++ natDigits count) := by
      rw [reSearch, readName]
      have hb := reSearchAux_block (natDigits rank) (natDigits count)
        (natDigits_ne_nil rank) (natDigits_all_digit rank)
        (natDigits_ne_nil count) (natDigits_all_digit count) smp []
      rw [List.nil_append] at hb
      simp only [List.append_assoc] at hb ⊢
      exact hb
    have hsplit : rsplitLast (readName smp rank count) = natDigits count := by
      have hshape : readName smp rank count =
          (smp ++ uRead ++ natDigits rank ++ ['_', 'c', 'o', 'u', 'n', 't']) ++
            '_' :: natDigits count := by
        rw [readName]
        have : uCount = ['_', 'c', 'o', 'u', 'n', 't'] ++ ['_'] := by decide
        rw [this]
        simp [List.append_assoc]
      rw [hshape, rsplitLast_append _ _
        (fun c hc => digit_ne_underscore c (natDigits_all_digit count c hc))]
    rw [parseSeqId, hsearch, parseSeqIdGo, hsplit, parseDigits_natDigits]
  refine ⟨hpart1, ?_⟩
  have hmem : ∀ (smp : Alias) (l : List (Seq × Nat)) (k : Nat)
      (p : List Char × Seq), p ∈ nameReadsFrom smp k l →
      ∃ (m c : Nat), k ≤ m ∧ p.1 = readName smp m c := by
    intro smp l
    induction l with
    | nil => intro k p hp; cases hp
    | cons a l ih =>
      intro k p hp
      obtain ⟨read, count⟩ := a
      rw [nameReadsFrom] at hp
      rcases List.mem_cons.1 hp with rfl | hp
      · exact ⟨k, count, le_refl _, rfl⟩
      · rcases ih (k + 1) p hp with ⟨m, c, hm, hpm⟩
        exact ⟨m, c, by omega, hpm⟩
  intro smp d p hp
  rcases hmem smp (sortReadsByCountDesc d) 1 p hp with ⟨m, c, hm, hpm⟩
  refine ⟨m - 1, c, ?_, ?_⟩
  · rw [hpm]
    congr 1
    omega
  · rw [hpm]
    exact hpart1 smp m c

/-- Witness for C6: the name built from alias "S", rank 1, count 3 parses back
to exactly ("S", 3). -/
theorem seqName_roundTrip_witness :
    ∃ (k c : Nat),
      ((readName ['S'] 1 3, ['A']) : List Char × Seq).1 = readName ['S'] (k + 1) c ∧
      parseSeqId (readName ['S'] 1 3, (['A'] : Seq)).1 = some (['S'], c) :=
  seqName_roundTrip.2 ['S'] [(['A'], 3)] (readName ['S'] 1 3, ['A'])
    (by simp [nameReads, sortReadsByCountDesc, List.mergeSort, nameReadsFrom])

/-! ### C1: duplicate reporting and contamination flagging
Embedding of the CheckDuplicates / FlagContaminants block (phyloscanner.py
lines 1444-1475) and the contaminant-removal block (lines 1486-1499).
`args.contaminant_count_ratio` is validated `>= 1` at line 461; the float
count ratio appears as exact rational arithmetic. -/

/-- Python dict lookup on a read dict: the count stored for a sequence. -/
def lookupCount : List (Seq × Nat) → Seq → Option Nat
  | [], _ => none
  | p :: t, s => if p.1 = s then some p.2 else lookupCount t s

/-- One raw duplicate record: when the read is present in the other dict, the
tuple `(BamFile1Alias, BamFile2Alias, Bam1Count, Bam2Count)` (line 1456). -/
def dupEntry (a1 a2 : Alias) (c1 : Nat) : Option Nat →
    Option (Alias × Alias × Nat × Nat)
  | some c2 => some (a1, a2, c1, c2)
  | none => none

/-- The duplicate records produced by one ordered pair of read dicts
(the inner two loops at lines 1452-1457). -/
def pairDup (a1 : Alias) (d1 : List (Seq × Nat)) (a2 : Alias)
    (d2 : List (Seq × Nat)) : List (Alias × Alias × Nat × Nat) :=
  d1.filterMap (fun p => dupEntry a1 a2 p.2 (lookupCount d2 p.1))

/-- Embedding of `DuplicateDetails` (lines 1444-1457): every ordered pair
`i < j` of read dicts contributes its shared-read records. -/
def duplicateDetails : List (Alias × List (Seq × Nat)) →
    List (Alias × Alias × Nat × Nat)
  | [] => []
  | q :: rest =>
    (rest.map (fun p => pairDup q.1 q.2 p.1 p.2)).flatten ++ duplicateDetails rest

/-- Embedding of the flagging decision (lines 1460-1466): with
`CountRatio = Bam1Count / Bam2Count`, flag the second alias when
`CountRatio >= r`, else the first when `CountRatio <= 1/r`, else nobody. -/
def contaminantAliasFor (r : Rat) (a1 a2 : Alias) (c1 c2 : Nat) : Option Alias :=
  if (c1 : Rat) / (c2 : Rat) ≥ r then some a2
  else if (c1 : Rat) / (c2 : Rat) ≤ 1 / r then some a1
  else none

/-- The flag event for one shared read of one pair, if any. -/
def flagEvent (r : Rat) (a1 a2 : Alias) (s : Seq) (c1 : Nat) :
    Option Nat → Option (Alias × Seq)
  | some c2 => (contaminantAliasFor r a1 a2 c1 c2).map (fun a => (a, s))
  | none => none

/-- The flag events produced by one ordered pair of read dicts. -/
def pairFlagEvents (r : Rat) (a1 : Alias) (d1 : List (Seq × Nat)) (a2 : Alias)
    (d2 : List (Seq × Nat)) : List (Alias × Seq) :=
  d1.filterMap (fun p => flagEvent r a1 a2 p.1 p.2 (lookupCount d2 p.1))

/-- All flag events of the window, in loop order. -/
def allFlagEvents (r : Rat) : List (Alias × List (Seq × Nat)) →
    List (Alias × Seq)
  | [] => []
  | q :: rest =>
    (rest.map (fun p => pairFlagEvents r q.1 q.2 p.1 p.2)).flatten ++
      allFlagEvents r rest

/-- Embedding of the update of `ContaminantReadsFound` (lines 1467-1475): the
read is appended to the flagged alias's list unless already present. -/
def addContaminant (m : List (Alias × List Seq)) (a : Alias) (s : Seq) :
    List (Alias × List Seq) :=
  if m.any (fun q => decide (q.1 = a)) then
    m.map (fun q => if q.1 = a then (q.1, if s ∈ q.2 then q.2 else q.2 ++ [s])
      else q)
  else m ++ [(a, [s])]

/-- `ContaminantReadsFound` after the whole pair loop. -/
def contaminantsFound (r : Rat) (W : List (Alias × List (Seq × Nat))) :
    List (Alias × List Seq) :=
  (allFlagEvents r W).foldl (fun m e => addContaminant m e.1 e.2) []

/-- Lookup in `ContaminantReadsFound` (empty when the alias is absent). -/
def lookupSeqs : List (Alias × List Seq) → Alias → List Seq
  | [], _ => []
  | q :: t, a => if q.1 = a then q.2 else lookupSeqs t a

/-- Embedding of the removal block (lines 1495-1499): for each read dict whose
alias was flagged, delete the flagged reads from the dict. -/
def removeContaminants (m : List (Alias × List Seq))
    (W : List (Alias × List (Seq × Nat))) : List (Alias × List (Seq × Nat)) :=
  W.map (fun q =>
    if m.any (fun e => decide (e.1 = q.1)) then
      (q.1, q.2.filter (fun p => decide (p.1 ∉ lookupSeqs m q.1)))
    else q)

theorem lookupCount_mem :
    ∀ (d : List (Seq × Nat)) (s : Seq) (c : Nat),
      lookupCount d s = some c → (s, c) ∈ d
  | [], s, c, h => by cases h
  | p :: t, s, c, h => by
    rw [lookupCount] at h
    by_cases hp : p.1 = s
    · rw [if_pos hp] at h
      cases h
      rw [← hp]
      exact List.mem_cons_self _ _
    · rw [if_neg hp] at h
      exact List.mem_cons_of_mem _ (lookupCount_mem t s c h)

theorem mem_pairDup (a1 a2 : Alias) (d1 d2 : List (Seq × Nat)) (s : Seq)
    (c1 c2 : Nat) (h1 : (s, c1) ∈ d1) (h2 : lookupCount d2 s = some c2) :
    (a1, a2, c1, c2) ∈ pairDup a1 d1 a2 d2 := by
  rw [pairDup, List.mem_filterMap]
  refine ⟨(s, c1), h1, ?_⟩
  rw [h2, dupEntry]

theorem mem_pairFlagEvents (r : Rat) (a1 a2 a : Alias)
    (d1 d2 : List (Seq × Nat)) (s : Seq) (c1 c2 : Nat)
    (h1 : (s, c1) ∈ d1) (h2 : lookupCount d2 s = some c2)
    (hf : contaminantAliasFor r a1 a2 c1 c2 = some a) :
    (a, s) ∈ pairFlagEvents r a1 d1 a2 d2 := by
  rw [pairFlagEvents, List.mem_filterMap]
  refine ⟨(s, c1), h1, ?_⟩
  rw [h2, flagEvent, hf]
  rfl

theorem mem_duplicateDetails :
    ∀ (P M S : List (Alias × List (Seq × Nat))) (a1 a2 : Alias)
      (d1 d2 : List (Seq × Nat)) (x : Alias × Alias × Nat × Nat),
      x ∈ pairDup a1 d1 a2 d2 →
      x ∈ duplicateDetails (P ++ (a1, d1) :: M ++ (a2, d2) :: S)
  | [], M, S, a1, a2, d1, d2, x, hx => by
    simp only [List.nil_append, duplicateDetails]
    refine List.mem_append_left _ (List.mem_flatten_of_mem ?_ hx)
    have hm : ((a2, d2) : Alias × List (Seq × Nat)) ∈ M ++ (a2, d2) :: S :=
      List.mem_append_right _ (List.mem_cons_self _ _)
    exact List.mem_map_of_mem (fun p => pairDup a1 d1 p.1 p.2) hm
  | (b, db) :: P, M, S, a1, a2, d1, d2, x, hx => by
    simp only [List.cons_append, duplicateDetails]
    exact List.mem_append_right _
      (mem_duplicateDetails P M S a1 a2 d1 d2 x hx)

theorem mem_allFlagEvents :
    ∀ (P M S : List (Alias × List (Seq × Nat))) (a1 a2 : Alias)
      (d1 d2 : List (Seq × Nat)) (x : Alias × Seq),
      x ∈ pairFlagEvents r a1 d1 a2 d2 →
      x ∈ allFlagEvents r (P ++ (a1, d1) :: M ++ (a2, d2) :: S)
  | [], M, S, a1, a2, d1, d2, x, hx => by
    simp only [List.nil_append, allFlagEvents]
    refine List.mem_append_left _ (List.mem_flatten_of_mem ?_ hx)
    have hm : ((a2, d2) : Alias × List (Seq × Nat)) ∈ M ++ (a2, d2) :: S :=
      List.mem_append_right _ (List.mem_cons_self _ _)
    exact List.mem_map_of_mem (fun p => pairFlagEvents r a1 d1 p.1 p.2) hm
  | (b, db) :: P, M, S, a1, a2, d1, d2, x, hx => by
    simp only [List.cons_append, allFlagEvents]
    exact List.mem_append_right _
      (mem_allFlagEvents P M S a1 a2 d1 d2 x hx)

theorem lookupSeqs_not_key :
    ∀ (m : List (Alias × List Seq)) (a : Alias),
      m.any (fun q => decide (q.1 = a)) = false → lookupSeqs m a = []
  | [], _, _ => rfl
  | q :: t, a, h => by
    rw [List.any_cons, Bool.or_eq_false_iff] at h
    rw [lookupSeqs, if_neg (by simpa using h.1)]
    exact lookupSeqs_not_key t a h.2

theorem lookupSeqs_map_upd_ne (b : Alias) (f : List Seq → List Seq) :
    ∀ (m : List (Alias × List Seq)) (a : Alias), a ≠ b →
      lookupSeqs (m.map (fun q => if q.1 = b then (q.1, f q.2) else q)) a =
        lookupSeqs m a
  | [], _, _ => rfl
  | q :: t, a, hab => by
    rw [List.map_cons]
    by_cases hqb : q.1 = b
    · rw [if_pos hqb, lookupSeqs, lookupSeqs,
        if_neg (show ¬q.1 = a from fun h => hab (by rw [← h, hqb])),
        if_neg (show ¬q.1 = a from fun h => hab (by rw [← h, hqb]))]
      exact lookupSeqs_map_upd_ne b f t a hab
    · rw [if_neg hqb, lookupSeqs, lookupSeqs]
      by_cases hqa : q.1 = a
      · rw [if_pos hqa, if_pos hqa]
      · rw [if_neg hqa, if_neg hqa]
        exact lookupSeqs_map_upd_ne b f t a hab

theorem lookupSeqs_map_upd_eq (b : Alias) (f : List Seq → List Seq) :
    ∀ m : List (Alias × List Seq),
      m.any (fun q => decide (q.1 = b)) = true →
      lookupSeqs (m.map (fun q => if q.1 = b then (q.1, f q.2) else q)) b =
        f (lookupSeqs m b)
  | [], h => by cases h
  | q :: t, h => by
    rw [List.map_cons]
    by_cases hqb : q.1 = b
    · rw [if_pos hqb, lookupSeqs, lookupSeqs, if_pos hqb, if_pos hqb]
    · rw [List.any_cons, Bool.or_eq_true] at h
      rcases h with h | h
      · exact absurd (by simpa using h) hqb
      · rw [if_neg hqb, lookupSeqs, lookupSeqs, if_neg hqb, if_neg hqb]
        exact lookupSeqs_map_upd_eq b f t h

theorem lookupSeqs_append_not_key :
    ∀ (m m2 : List (Alias × List Seq)) (a : Alias),
      m.any (fun q => decide (q.1 = a)) = false →
      lookupSeqs (m ++ m2) a = lookupSeqs m2 a
  | [], _, _, _ => rfl
  | q :: t, m2, a, h => by
    rw [List.any_cons, Bool.or_eq_false_iff] at h
    rw [List.cons_append, lookupSeqs, if_neg (by simpa using h.1)]
    exact lookupSeqs_append_not_key t m2 a h.2

theorem lookupSeqs_append_single_ne (b : Alias) (l : List Seq) :
    ∀ (m : List (Alias × List Seq)) (a : Alias), a ≠ b →
      lookupSeqs (m ++ [(b, l)]) a = lookupSeqs m a
  | [], a, hab => by
    have hba : ¬b = a := fun h => hab h.symm
    simp [lookupSeqs, hba]
  | q :: t, a, hab => by
    rw [List.cons_append, lookupSeqs, lookupSeqs]
    by_cases hqa : q.1 = a
    · rw [if_pos hqa, if_pos hqa]
    · rw [if_neg hqa, if_neg hqa]
      exact lookupSeqs_append_single_ne b l t a hab

theorem mem_lookupSeqs_addContaminant (m : List (Alias × List Seq))
    (b : Alias) (t : Seq) (a : Alias) (s : Seq) :
    s ∈ lookupSeqs (addContaminant m b t) a ↔
      s ∈ lookupSeqs m a ∨ (a = b ∧ s = t) := by
  rw [addContaminant]
  by_cases hany : m.any (fun q => decide (q.1 = b)) = true
  · rw [if_pos hany]
    by_cases hab : a = b
    · subst hab
      rw [lookupSeqs_map_upd_eq a (fun X => if t ∈ X then X else X ++ [t]) m hany]
      by_cases ht : t ∈ lookupSeqs m a
      · rw [if_pos ht]
        constructor
        · intro h
          exact Or.inl h
        · rintro (h | ⟨_, rfl⟩)
          · exact h
          · exact ht
      · rw [if_neg ht]
        constructor
        · intro h
          rcases List.mem_append.1 h with h | h
          · exact Or.inl h
          · exact Or.inr ⟨by trivial, by simpa using h⟩
        · rintro (h | ⟨_, rfl⟩)
          · exact List.mem_append_left _ h
          · exact List.mem_append_right _ (by simp)
    · rw [lookupSeqs_map_upd_ne b (fun X => if t ∈ X then X else X ++ [t]) m a hab]
      simp [hab]
  · rw [if_neg hany]
    have hanyf : m.any (fun q => decide (q.1 = b)) = false :=
      Bool.eq_false_iff.2 hany
    by_cases hab : a = b
    · subst hab
      rw [lookupSeqs_append_not_key m [(a, [t])] a hanyf,
        lookupSeqs_not_key m a hanyf, lookupSeqs, if_pos rfl]
      simp
    · rw [lookupSeqs_append_single_ne b [t] m a hab]
      simp [hab]

theorem mem_lookupSeqs_fold :
    ∀ (events : List (Alias × Seq)) (m : List (Alias × List Seq))
      (a : Alias) (s : Seq),
      s ∈ lookupSeqs (events.foldl (fun m e => addContaminant m e.1 e.2) m) a ↔
        s ∈ lookupSeqs m a ∨ (a, s) ∈ events
  | [], m, a, s => by simp
  | e :: es, m, a, s => by
    rw [List.foldl_cons, mem_lookupSeqs_fold es _ a s,
      mem_lookupSeqs_addContaminant m e.1 e.2 a s]
    constructor
    · rintro ((h | ⟨h1, h2⟩) | h)
      · exact Or.inl h
      · refine Or.inr (List.mem_cons.2 (Or.inl ?_))
        rw [Prod.ext_iff]
        exact ⟨h1, h2⟩
      · exact Or.inr (List.mem_cons_of_mem _ h)
    · rintro (h | h)
      · exact Or.inl (Or.inl h)
      · rcases List.mem_cons.1 h with h | h
        · rw [Prod.ext_iff] at h
          exact Or.inl (Or.inr ⟨h.1, h.2⟩)
        · exact Or.inr h

theorem mem_contaminantsFound (r : Rat) (W : List (Alias × List (Seq × Nat)))
    (a : Alias) (s : Seq) :
    s ∈ lookupSeqs (contaminantsFound r W) a ↔ (a, s) ∈ allFlagEvents r W := by
  rw [contaminantsFound, mem_lookupSeqs_fold]
  simp [lookupSeqs]

theorem lookupCount_filter_notmem :
    ∀ (d : List (Seq × Nat)) (X : List Seq) (s : Seq),
      lookupCount (d.filter (fun p => decide (p.1 ∉ X))) s =
        if s ∈ X then none else lookupCount d s
  | [], X, s => by
    by_cases h : s ∈ X <;> simp [lookupCount, h]
  | p :: t, X, s => by
    rw [List.filter_cons]
    by_cases hp : p.1 ∈ X
    · rw [if_neg (by simp [hp]), lookupCount_filter_notmem t X s]
      by_cases hs : s ∈ X
      · rw [if_pos hs, if_pos hs]
      · rw [if_neg hs, if_neg hs, lookupCount,
          if_neg (show ¬p.1 = s from fun h => hs (h ▸ hp))]
    · rw [if_pos (by simp [hp]), lookupCount]
      by_cases hps : p.1 = s
      · rw [if_pos hps, if_neg (show ¬s ∈ X from hps ▸ hp), lookupCount,
          if_pos hps]
      · rw [if_neg hps, lookupCount_filter_notmem t X s]
        by_cases hs : s ∈ X
        · rw [if_pos hs, if_pos hs]
        · rw [if_neg hs, if_neg hs, lookupCount, if_neg hps]

theorem removeContaminants_spec (m : List (Alias × List Seq))
    (W : List (Alias × List (Seq × Nat))) :
    ∀ q ∈ removeContaminants m W,
      ∃ d0, (q.1, d0) ∈ W ∧ ∀ s, lookupCount q.2 s =
        if s ∈ lookupSeqs m q.1 then none else lookupCount d0 s := by
  intro q hq
  rw [removeContaminants, List.mem_map] at hq
  rcases hq with ⟨q0, hq0, hupd⟩
  by_cases hg : m.any (fun e => decide (e.1 = q0.1)) = true
  · rw [if_pos hg] at hupd
    refine ⟨q0.2, ?_, ?_⟩
    · rw [← hupd]
      exact hq0
    · intro s
      rw [← hupd]
      exact lookupCount_filter_notmem q0.2 (lookupSeqs m q0.1) s
  · rw [if_neg hg] at hupd
    subst hupd
    refine ⟨q0.2, hq0, ?_⟩
    intro s
    have hgf : m.any (fun e => decide (e.1 = q0.1)) = false :=
      Bool.eq_false_iff.2 hg
    rw [lookupSeqs_not_key m q0.1 hgf]
    simp

theorem contaminantAliasFor_spec (r : Rat) (hr : 1 ≤ r) (a1 a2 : Alias)
    (hne : a1 ≠ a2) (c1 c2 : Nat) (h1 : 0 < c1) (h2 : 0 < c2) :
    (c1 ≠ c2 →
      ((contaminantAliasFor r a1 a2 c1 c2 =
          some (if c1 < c2 then a1 else a2)) ↔
        r ≤ ((max c1 c2 : Nat) : Rat) / ((min c1 c2 : Nat) : Rat)) ∧
      contaminantAliasFor r a1 a2 c1 c2 ≠ some (if c1 < c2 then a2 else a1)) ∧
    (c1 = c2 → 1 < r → contaminantAliasFor r a1 a2 c1 c2 = none) := by
  have hc1 : (0 : Rat) < (c1 : Rat) := by exact_mod_cast h1
  have hc2 : (0 : Rat) < (c2 : Rat) := by exact_mod_cast h2
  have hrpos : (0 : Rat) < r := lt_of_lt_of_le one_pos hr
  rcases Nat.lt_trichotomy c1 c2 with hlt | heq | hgt
  · refine ⟨fun _ => ?_, fun heq => absurd heq (Nat.ne_of_lt hlt)⟩
    rw [Nat.max_eq_right hlt.le, Nat.min_eq_left hlt.le, if_pos hlt, if_pos hlt]
    have hxlt1 : (c1 : Rat) / (c2 : Rat) < 1 := by
      rw [div_lt_one hc2]
      exact_mod_cast hlt
    have hnotge : ¬((c1 : Rat) / (c2 : Rat) ≥ r) := fun h =>
      absurd (le_trans hr h) (not_le.2 hxlt1)
    rw [contaminantAliasFor, if_neg hnotge]
    have hiff : (c1 : Rat) / (c2 : Rat) ≤ 1 / r ↔ r ≤ (c2 : Rat) / (c1 : Rat) := by
      rw [div_le_div_iff₀ hc2 hrpos, le_div_iff₀ hc1]
      constructor <;> intro h <;> linarith
    by_cases hle : (c1 : Rat) / (c2 : Rat) ≤ 1 / r
    · rw [if_pos hle]
      refine ⟨⟨fun _ => hiff.1 hle, fun _ => rfl⟩, ?_⟩
      intro h
      exact hne (Option.some.inj h)
    · rw [if_neg hle]
      refine ⟨⟨fun h => absurd h (by simp), fun h => absurd (hiff.2 h) hle⟩, ?_⟩
      intro h
      cases h
  · refine ⟨fun hne2 => absurd heq hne2, fun _ hr1 => ?_⟩
    subst heq
    have hx1 : (c1 : Rat) / (c1 : Rat) = 1 := div_self (ne_of_gt hc1)
    rw [contaminantAliasFor, hx1, if_neg (not_le.2 hr1), if_neg ?_]
    rw [not_le, div_lt_one hrpos]
    exact hr1
  · have hnlt : ¬c1 < c2 := Nat.not_lt.2 hgt.le
    refine ⟨fun _ => ?_, fun heq => absurd heq (Nat.ne_of_gt hgt)⟩
    rw [Nat.max_eq_left hgt.le, Nat.min_eq_right hgt.le, if_neg hnlt, if_neg hnlt]
    have hx1 : (1 : Rat) < (c1 : Rat) / (c2 : Rat) := by
      rw [one_lt_div hc2]
      exact_mod_cast hgt
    have h1r : (1 : Rat) / r ≤ 1 := by
      rw [div_le_one hrpos]
      exact hr
    have hnle : ¬((c1 : Rat) / (c2 : Rat) ≤ 1 / r) :=
      not_le.2 (lt_of_le_of_lt h1r hx1)
    rw [contaminantAliasFor]
    by_cases hge : (c1 : Rat) / (c2 : Rat) ≥ r
    · rw [if_pos hge]
      refine ⟨⟨fun _ => hge, fun _ => rfl⟩, ?_⟩
      intro h
      exact hne (Option.some.inj h).symm
    · rw [if_neg hge, if_neg hnle]
      refine ⟨⟨fun h => absurd h (by simp), fun h => absurd h hge⟩, ?_⟩
      intro h
      cases h

/-- C1: for every window dict list split as `P ++ (a1, d1) :: M ++ (a2, d2) :: S`
(an ordered pair of samples) and every sequence present in both dicts with
counts c1 and c2, (i) the tuple `(a1, a2, c1, c2)` is recorded in the duplicate
report and any flag event raised for the pair enters the window's flag-event
list; (ii) with a ratio threshold `r ≥ 1` (as validated by the program) and
distinct counts, the pair's decision flags exactly the lower-count sample iff
`max(c1,c2)/min(c1,c2) ≥ r`, never the higher-count one, and at equal counts
with `r > 1` nobody is flagged; (iii) a sequence is held for an alias in
`ContaminantReadsFound` iff a flag event for it was raised; (iv) each output
dict of the removal block comes from an input dict with the held sequences
deleted and all others kept with their counts. -/
theorem contaminationDetector_spec (r : Rat) (hr : 1 ≤ r)
    (W : List (Alias × List (Seq × Nat))) :
    (∀ (P M S : List (Alias × List (Seq × Nat))) (a1 a2 : Alias)
      (d1 d2 : List (Seq × Nat)) (s : Seq) (c1 c2 : Nat),
      W = P ++ (a1, d1) :: M ++ (a2, d2) :: S →
      (s, c1) ∈ d1 → lookupCount d2 s = some c2 →
      (a1, a2, c1, c2) ∈ duplicateDetails W ∧
      ∀ a, contaminantAliasFor r a1 a2 c1 c2 = some a →
        (a, s) ∈ allFlagEvents r W) ∧
    (∀ (a1 a2 : Alias) (c1 c2 : Nat), a1 ≠ a2 → 0 < c1 → 0 < c2 →
      (c1 ≠ c2 →
        ((contaminantAliasFor r a1 a2 c1 c2 =
            some (if c1 < c2 then a1 else a2)) ↔
          r ≤ ((max c1 c2 : Nat) : Rat) / ((min c1 c2 : Nat) : Rat)) ∧
        contaminantAliasFor r a1 a2 c1 c2 ≠ some (if c1 < c2 then a2 else a1)) ∧
      (c1 = c2 → 1 < r → contaminantAliasFor r a1 a2 c1 c2 = none)) ∧
    (∀ (a : Alias) (s : Seq),
      s ∈ lookupSeqs (contaminantsFound r W) a ↔ (a, s) ∈ allFlagEvents r W) ∧
    (∀ q ∈ removeContaminants (contaminantsFound r W) W,
      ∃ d0, (q.1, d0) ∈ W ∧ ∀ s, lookupCount q.2 s =
        if s ∈ lookupSeqs (contaminantsFound r W) q.1 then none
        else lookupCount d0 s) := by
  refine ⟨?_, ?_, ?_, ?_⟩
  · intro P M S a1 a2 d1 d2 s c1 c2 hW hs1 hs2
    subst hW
    refine ⟨?_, ?_⟩
    · exact mem_duplicateDetails P M S a1 a2 d1 d2 _
        (mem_pairDup a1 a2 d1 d2 s c1 c2 hs1 hs2)
    · intro a hf
      exact mem_allFlagEvents P M S a1 a2 d1 d2 _
        (mem_pairFlagEvents r a1 a2 a d1 d2 s c1 c2 hs1 hs2 hf)
  · intro a1 a2 c1 c2 hne h1 h2
    exact contaminantAliasFor_spec r hr a1 a2 hne c1 c2 h1 h2
  · intro a s
    exact mem_contaminantsFound r W a s
  · exact removeContaminants_spec (contaminantsFound r W) W

/-- Witness for C1 at the spec's example: sample A holds "ACGT" with count 100,
sample B holds it with count 2, threshold r = 10; the report records
(A, B, 100, 2), the decision flags B (the lower-count sample), and B's copy is
held in `ContaminantReadsFound`. -/
theorem contaminationDetector_spec_witness :
    (1 : Rat) ≤ 10 ∧
    ((['A'], ['B'], 100, 2) ∈ duplicateDetails
        [(['A'], [(['A','C','G','T'], 100)]), (['B'], [(['A','C','G','T'], 2)])] ∧
      ∀ a, contaminantAliasFor 10 ['A'] ['B'] 100 2 = some a →
        (a, ['A','C','G','T']) ∈ allFlagEvents 10
          [(['A'], [(['A','C','G','T'], 100)]), (['B'], [(['A','C','G','T'], 2)])]) := by
  have h := (contaminationDetector_spec 10 (by norm_num)
    [(['A'], [(['A','C','G','T'], 100)]), (['B'], [(['A','C','G','T'], 2)])]).1
    [] [] [] ['A'] ['B'] [(['A','C','G','T'], 100)] [(['A','C','G','T'], 2)]
    ['A','C','G','T'] 100 2 rfl (by decide) (by decide)
  exact ⟨by norm_num, h⟩

end Phyloscanner
